import Mathlib

/-!
Verification of the template MCP server's response-formatting layer.

The development embeds, in Lean, the repository's `toon_utils.py`
(`to_toon`, `from_toon`, `format_response`) and
`multiply_tool.py` (`multiply_numbers`), together with the TOON
serialization codec those wrappers delegate to.  Python values that can
cross the tool boundary (None, bool, int, float, str, list, dict) are
modelled by the inductive type `Value`; Python floats are modelled
exactly as decimal fractions `m / 10 ^ (e+1)`, which captures the
decimal wire format and the integer-versus-float distinction the spec
cares about while abstracting from IEEE-754 rounding.
-/

namespace ToonSpec

/-- Character lists stand for the contents of Python strings. -/
abbrev Chars := List Char

/-- A physical line of TOON text: indentation width in spaces, then content. -/
abbrev Line := Nat × Chars

/-- Split a character list at every occurrence of `sep` (the separator is
dropped).  Always returns a nonempty list of chunks. -/
def splitOnChar (sep : Char) : Chars → List Chars
  | [] => [[]]
  | c :: cs =>
    match splitOnChar sep cs with
    | [] => if c = sep then [[], []] else [[c]]
    | h :: t => if c = sep then [] :: h :: t else (c :: h) :: t

/-- Split at the first occurrence of `t`, dropping it; `none` if absent. -/
def breakAtChar (t : Char) : Chars → Option (Chars × Chars)
  | [] => none
  | c :: cs =>
    if c = t then some ([], cs)
    else (breakAtChar t cs).map (fun p => (c :: p.1, p.2))

/-- Number of consecutive copies of `t` at the front of the list. -/
def countLeading (t : Char) : Chars → Nat
  | [] => 0
  | c :: cs => if c = t then countLeading t cs + 1 else 0

theorem splitOnChar_ne_nil (sep : Char) (cs : Chars) : splitOnChar sep cs ≠ [] := by
  induction cs with
  | nil => simp [splitOnChar]
  | cons c cs ih =>
    simp only [splitOnChar]
    split
    · split <;> simp
    · split <;> simp

theorem splitOnChar_no_sep (sep : Char) (cs : Chars) (h : sep ∉ cs) :
    splitOnChar sep cs = [cs] := by
  induction cs with
  | nil => rfl
  | cons c cs ih =>
    simp only [List.mem_cons, not_or] at h
    have hcs : ¬c = sep := fun hh => h.1 hh.symm
    simp only [splitOnChar, ih h.2, if_neg hcs]

theorem splitOnChar_append (sep : Char) (a bs : Chars) (ha : sep ∉ a) :
    splitOnChar sep (a ++ sep :: bs) = a :: splitOnChar sep bs := by
  induction a with
  | nil =>
    simp only [List.nil_append, splitOnChar]
    rcases h : splitOnChar sep bs with _ | ⟨h₁, t⟩
    · exact absurd h (splitOnChar_ne_nil sep bs)
    · simp
  | cons c a ih =>
    simp only [List.mem_cons, not_or] at ha
    have hcs : ¬c = sep := fun hh => ha.1 hh.symm
    simp only [List.cons_append, splitOnChar, List.append_eq, ih ha.2, if_neg hcs]

theorem splitOnChar_intercalate (sep : Char) (cells : List Chars)
    (hne : cells ≠ []) (hc : ∀ cell ∈ cells, sep ∉ cell) :
    splitOnChar sep (List.intercalate [sep] cells) = cells := by
  induction cells with
  | nil => exact absurd rfl hne
  | cons a cells ih =>
    rcases cells with _ | ⟨b, t⟩
    · simpa [List.intercalate] using splitOnChar_no_sep sep a (hc a (by simp))
    · have ha : sep ∉ a := hc a (by simp)
      have hrest : ∀ cell ∈ b :: t, sep ∉ cell := fun cell hm => hc cell (by simp [hm])
      have : List.intercalate [sep] (a :: b :: t) =
          a ++ sep :: List.intercalate [sep] (b :: t) := by
        simp [List.intercalate, List.intersperse]
      rw [this, splitOnChar_append sep a _ ha, ih (by simp) hrest]

theorem breakAtChar_append (t : Char) (a bs : Chars) (ha : t ∉ a) :
    breakAtChar t (a ++ t :: bs) = some (a, bs) := by
  induction a with
  | nil => simp [breakAtChar]
  | cons c a ih =>
    simp only [List.mem_cons, not_or] at ha
    have hcs : ¬c = t := fun hh => ha.1 hh.symm
    simp only [List.cons_append, breakAtChar, List.append_eq, if_neg hcs, ih ha.2]
    rfl

theorem countLeading_not_head (t : Char) (cs : Chars)
    (h : ∀ c, cs.head? = some c → c ≠ t) : countLeading t cs = 0 := by
  cases cs with
  | nil => rfl
  | cons c cs => simp [countLeading, h c rfl]

theorem countLeading_replicate_append (t : Char) (n : Nat) (cs : Chars)
    (h : ∀ c, cs.head? = some c → c ≠ t) :
    countLeading t (List.replicate n t ++ cs) = n := by
  induction n with
  | zero => simpa using countLeading_not_head t cs h
  | succ n ih => simp [List.replicate_succ, countLeading, ih]

/-- Decimal digit characters of `n`, most significant first; `fuel`-driven so
that the kernel can evaluate it (`natToChars` supplies enough fuel). -/
def natToCharsAux : Nat → Nat → Chars
  | 0, _ => []
  | fuel + 1, n =>
    if n < 10 then [Nat.digitChar n]
    else natToCharsAux fuel (n / 10) ++ [Nat.digitChar (n % 10)]

/-- Decimal digit characters of `n`, most significant first, no sign. -/
def natToChars (n : Nat) : Chars := natToCharsAux (n + 1) n

/-- Numeric value of a big-endian digit-character list. -/
def charsToNat (cs : Chars) : Nat :=
  cs.foldl (fun a c => a * 10 + (c.toNat - 48)) 0

theorem digitChar_val (d : Nat) (h : d < 10) : (Nat.digitChar d).toNat - 48 = d := by
  interval_cases d <;> decide

theorem digitChar_isDigit (d : Nat) (h : d < 10) : (Nat.digitChar d).isDigit = true := by
  interval_cases d <;> decide

theorem charsToNat_from (a : Nat) (cs : Chars) :
    cs.foldl (fun a c => a * 10 + (c.toNat - 48)) a =
      a * 10 ^ cs.length + charsToNat cs := by
  induction cs generalizing a with
  | nil => simp [charsToNat]
  | cons c cs ih =>
    simp only [List.foldl_cons, charsToNat] at *
    rw [ih, ih (0 * 10 + (c.toNat - 48))]
    simp only [List.length_cons, pow_succ]
    ring

theorem charsToNat_append_digit (cs : Chars) (c : Char) :
    charsToNat (cs ++ [c]) = charsToNat cs * 10 + (c.toNat - 48) := by
  simp only [charsToNat, List.foldl_append, List.foldl_cons, List.foldl_nil]

theorem charsToNat_natToCharsAux (fuel n : Nat) (h : n < fuel) :
    charsToNat (natToCharsAux fuel n) = n := by
  induction fuel generalizing n with
  | zero => omega
  | succ fuel ih =>
    simp only [natToCharsAux]
    split
    · next h10 =>
      simp [charsToNat, digitChar_val n h10]
    · next h10 =>
      push_neg at h10
      have hlt : n / 10 < fuel := by omega
      rw [charsToNat_append_digit, ih _ hlt,
        digitChar_val (n % 10) (Nat.mod_lt n (by omega))]
      omega

theorem charsToNat_natToChars (n : Nat) : charsToNat (natToChars n) = n :=
  charsToNat_natToCharsAux (n + 1) n (Nat.lt_succ_self n)

theorem natToCharsAux_digits (fuel n : Nat) (h : n < fuel) :
    ∀ c ∈ natToCharsAux fuel n, c.isDigit = true := by
  induction fuel generalizing n with
  | zero => omega
  | succ fuel ih =>
    intro c hc
    simp only [natToCharsAux] at hc
    split at hc
    · next h10 =>
      simp only [List.mem_singleton] at hc
      exact hc ▸ digitChar_isDigit n h10
    · next h10 =>
      push_neg at h10
      rcases List.mem_append.mp hc with hm | hm
      · exact ih (n / 10) (by omega) c hm
      · simp only [List.mem_singleton] at hm
        exact hm ▸ digitChar_isDigit (n % 10) (Nat.mod_lt n (by omega))

theorem natToChars_digits (n : Nat) : ∀ c ∈ natToChars n, c.isDigit = true :=
  natToCharsAux_digits (n + 1) n (Nat.lt_succ_self n)

theorem natToCharsAux_ne_nil (fuel n : Nat) (h : n < fuel) :
    natToCharsAux fuel n ≠ [] := by
  cases fuel with
  | zero => omega
  | succ fuel =>
    simp only [natToCharsAux]
    split <;> simp

theorem natToChars_ne_nil (n : Nat) : natToChars n ≠ [] :=
  natToCharsAux_ne_nil (n + 1) n (Nat.lt_succ_self n)

theorem charsToNat_leading_zeros (k : Nat) (cs : Chars) :
    charsToNat (List.replicate k '0' ++ cs) = charsToNat cs := by
  induction k with
  | zero => simp
  | succ k ih => simpa [charsToNat, List.replicate_succ] using ih

/-- A nonempty all-digit character list. -/
def isDigits (cs : Chars) : Bool := !cs.isEmpty && cs.all Char.isDigit

/-- Integer literal: optional minus sign, then digits. -/
def isIntLit (cs : Chars) : Bool :=
  match cs with
  | [] => false
  | c :: rest => if c = '-' then isDigits rest else isDigits (c :: rest)

/-- Value of an integer literal (assumes `isIntLit`). -/
def parseIntLit (cs : Chars) : Int :=
  match cs with
  | [] => 0
  | c :: rest =>
    if c = '-' then -(charsToNat rest : Int) else (charsToNat (c :: rest) : Int)

/-- Decimal rendering of a Python int. -/
def intToChars (n : Int) : Chars :=
  if n < 0 then '-' :: natToChars n.natAbs else natToChars n.natAbs

/-- Float literal: optional minus sign, digits, a point, more digits. -/
def isFloatLit (cs : Chars) : Bool :=
  match cs with
  | [] => false
  | c :: rest =>
    match breakAtChar '.' (if c = '-' then rest else c :: rest) with
    | some (a, b) => isDigits a && isDigits b
    | none => false

/-- Mantissa and fractional precision of a float literal: `(m, e)` stands
for the number `m / 10 ^ (e+1)` (assumes `isFloatLit`). -/
def parseFloatLit (cs : Chars) : Int × Nat :=
  match cs with
  | [] => (0, 0)
  | c :: rest =>
    match breakAtChar '.' (if c = '-' then rest else c :: rest) with
    | some (a, b) =>
      (if c = '-' then -(charsToNat (a ++ b) : Int) else (charsToNat (a ++ b) : Int),
        b.length - 1)
    | none => (0, 0)

/-- Digit string of `|m|`, left-padded with zeros to at least `e+2` digits. -/
def floatDigits (m : Int) (e : Nat) : Chars :=
  List.replicate (e + 2 - (natToChars m.natAbs).length) '0' ++ natToChars m.natAbs

/-- Decimal rendering of the float `m / 10 ^ (e+1)`, always with at least one
digit before and `e+1` digits after the point. -/
def floatChars (m : Int) (e : Nat) : Chars :=
  (if m < 0 then ['-'] else []) ++
    (floatDigits m e).take ((floatDigits m e).length - (e + 1)) ++
    '.' :: (floatDigits m e).drop ((floatDigits m e).length - (e + 1))

theorem isDigits_false_of_mem (cs : Chars) (c : Char) (hm : c ∈ cs)
    (hc : c.isDigit = false) : cs.all Char.isDigit = false := by
  rw [List.all_eq_false]
  exact ⟨c, hm, by simp [hc]⟩

theorem isDigits_of_all (cs : Chars) (hne : cs ≠ [])
    (hd : ∀ c ∈ cs, c.isDigit = true) : isDigits cs = true := by
  simp only [isDigits, Bool.and_eq_true, List.all_eq_true]
  exact ⟨by simpa using hne, hd⟩

theorem isIntLit_intToChars (n : Int) : isIntLit (intToChars n) = true := by
  have hd := natToChars_digits n.natAbs
  have hne := natToChars_ne_nil n.natAbs
  unfold intToChars
  split
  · simp only [isIntLit, if_pos rfl]
    exact isDigits_of_all _ hne hd
  · rcases h : natToChars n.natAbs with _ | ⟨c, t⟩
    · exact absurd h hne
    · have hcd : c.isDigit = true := hd c (by rw [h]; simp)
      have hcne : ¬c = '-' := by
        intro hh
        rw [hh] at hcd
        simp at hcd
      simp only [isIntLit, if_neg hcne]
      exact isDigits_of_all _ (by simp) (fun x hx => hd x (h ▸ hx))

theorem parseIntLit_intToChars (n : Int) : parseIntLit (intToChars n) = n := by
  have hd := natToChars_digits n.natAbs
  have hne := natToChars_ne_nil n.natAbs
  have hval := charsToNat_natToChars n.natAbs
  unfold intToChars
  split
  · next hneg =>
    have : parseIntLit ('-' :: natToChars n.natAbs) =
        -(charsToNat (natToChars n.natAbs) : Int) := by
      simp [parseIntLit]
    rw [this, hval]
    omega
  · next hneg =>
    rcases h : natToChars n.natAbs with _ | ⟨c, t⟩
    · exact absurd h hne
    · have hcd : c.isDigit = true := hd c (by rw [h]; simp)
      have hcne : ¬c = '-' := by
        intro hh
        rw [hh] at hcd
        simp at hcd
      rw [h] at hval
      simp only [parseIntLit, if_neg hcne, hval]
      omega

theorem dot_not_digit : ('.' : Char).isDigit = false := by decide

theorem isDigits_no_dot (cs : Chars) (h : isDigits cs = true) : '.' ∉ cs := by
  intro hm
  simp only [isDigits, Bool.and_eq_true] at h
  rw [isDigits_false_of_mem cs '.' hm dot_not_digit] at h
  simp at h

theorem isDigits_head (c : Char) (t : Chars) (h : isDigits (c :: t) = true) :
    c.isDigit = true := by
  simp only [isDigits, Bool.and_eq_true, List.all_eq_true] at h
  exact h.2 c (by simp)

theorem digit_ne_dash (c : Char) (h : c.isDigit = true) : ¬c = '-' := by
  intro hh
  rw [hh] at h
  simp at h

theorem floatChars_spec (m : Int) (e : Nat) :
    ∃ a b : Chars, floatChars m e = (if m < 0 then ['-'] else []) ++ a ++ '.' :: b ∧
      isDigits a = true ∧ isDigits b = true ∧ b.length = e + 1 ∧
      charsToNat (a ++ b) = m.natAbs := by
  have hdl : natToChars m.natAbs ≠ [] := natToChars_ne_nil m.natAbs
  have hd := natToChars_digits m.natAbs
  have hdl1 : 1 ≤ (natToChars m.natAbs).length := by
    cases h : natToChars m.natAbs with
    | nil => exact absurd h hdl
    | cons a t => simp [h]
  have hL : (floatDigits m e).length =
      (e + 2 - (natToChars m.natAbs).length) + (natToChars m.natAbs).length := by
    simp [floatDigits]
  have hLe : e + 2 ≤ (floatDigits m e).length := by omega
  have hpd : ∀ c ∈ floatDigits m e, c.isDigit = true := by
    intro c hc
    rcases List.mem_append.mp hc with hm | hm
    · rw [List.eq_of_mem_replicate hm]; decide
    · exact hd c hm
  refine ⟨(floatDigits m e).take ((floatDigits m e).length - (e + 1)),
    (floatDigits m e).drop ((floatDigits m e).length - (e + 1)), rfl, ?_, ?_, ?_, ?_⟩
  · refine isDigits_of_all _ ?_ (fun c hc => hpd c (List.mem_of_mem_take hc))
    have hlen : ((floatDigits m e).take ((floatDigits m e).length - (e + 1))).length =
        min ((floatDigits m e).length - (e + 1)) (floatDigits m e).length := by simp
    intro hnil
    rw [hnil] at hlen
    simp only [List.length_nil] at hlen
    omega
  · refine isDigits_of_all _ ?_ (fun c hc => hpd c (List.mem_of_mem_drop hc))
    have hlen : ((floatDigits m e).drop ((floatDigits m e).length - (e + 1))).length =
        (floatDigits m e).length - ((floatDigits m e).length - (e + 1)) := by simp
    intro hnil
    rw [hnil] at hlen
    simp only [List.length_nil] at hlen
    omega
  · have hlen : ((floatDigits m e).drop ((floatDigits m e).length - (e + 1))).length =
        (floatDigits m e).length - ((floatDigits m e).length - (e + 1)) := by simp
    omega
  · rw [List.take_append_drop]
    simp only [floatDigits]
    rw [charsToNat_leading_zeros, charsToNat_natToChars]

theorem parseFloatLit_neg (rest : Chars) :
    parseFloatLit ('-' :: rest) =
      match breakAtChar '.' rest with
      | some (a, b) => (-(charsToNat (a ++ b) : Int), b.length - 1)
      | none => (0, 0) := rfl

theorem parseFloatLit_cons (c : Char) (rest : Chars) (hc : ¬c = '-') :
    parseFloatLit (c :: rest) =
      match breakAtChar '.' (c :: rest) with
      | some (a, b) => ((charsToNat (a ++ b) : Int), b.length - 1)
      | none => (0, 0) := by
  simp only [parseFloatLit, if_neg hc]

theorem isFloatLit_neg (rest : Chars) :
    isFloatLit ('-' :: rest) =
      match breakAtChar '.' rest with
      | some (a, b) => isDigits a && isDigits b
      | none => false := rfl

theorem isFloatLit_cons (c : Char) (rest : Chars) (hc : ¬c = '-') :
    isFloatLit (c :: rest) =
      match breakAtChar '.' (c :: rest) with
      | some (a, b) => isDigits a && isDigits b
      | none => false := by
  simp only [isFloatLit, if_neg hc]

theorem isIntLit_cons (c : Char) (rest : Chars) :
    isIntLit (c :: rest) =
      if c = '-' then isDigits rest else isDigits (c :: rest) := rfl

theorem parseFloatLit_floatChars (m : Int) (e : Nat) :
    parseFloatLit (floatChars m e) = (m, e) := by
  obtain ⟨a, b, heq, hda, hdb, hbl, hval⟩ := floatChars_spec m e
  have hbreak : breakAtChar '.' (a ++ '.' :: b) = some (a, b) :=
    breakAtChar_append '.' a b (isDigits_no_dot a hda)
  by_cases hm : m < 0
  · rw [heq, if_pos hm]
    have h2 : ['-'] ++ a ++ '.' :: b = '-' :: (a ++ '.' :: b) := by simp
    rw [h2, parseFloatLit_neg, hbreak]
    simp only [hval, hbl, Nat.add_sub_cancel]
    rw [show -(m.natAbs : Int) = m by omega]
  · rw [heq, if_neg hm]
    cases a with
    | nil => simp [isDigits] at hda
    | cons c t =>
      have hcne : ¬c = '-' := digit_ne_dash c (isDigits_head c t hda)
      have h2 : ([] : Chars) ++ c :: t ++ '.' :: b = c :: (t ++ '.' :: b) := by simp
      rw [h2, parseFloatLit_cons c _ hcne,
        show c :: (t ++ '.' :: b) = (c :: t) ++ '.' :: b from rfl, hbreak]
      simp only [hval, hbl, Nat.add_sub_cancel]
      rw [show (m.natAbs : Int) = m by omega]

theorem isFloatLit_floatChars (m : Int) (e : Nat) :
    isFloatLit (floatChars m e) = true := by
  obtain ⟨a, b, heq, hda, hdb, hbl, hval⟩ := floatChars_spec m e
  have hbreak : breakAtChar '.' (a ++ '.' :: b) = some (a, b) :=
    breakAtChar_append '.' a b (isDigits_no_dot a hda)
  by_cases hm : m < 0
  · rw [heq, if_pos hm]
    have h2 : ['-'] ++ a ++ '.' :: b = '-' :: (a ++ '.' :: b) := by simp
    rw [h2, isFloatLit_neg, hbreak]
    simp [hda, hdb]
  · rw [heq, if_neg hm]
    cases a with
    | nil => simp [isDigits] at hda
    | cons c t =>
      have hcne : ¬c = '-' := digit_ne_dash c (isDigits_head c t hda)
      have h2 : ([] : Chars) ++ c :: t ++ '.' :: b = c :: (t ++ '.' :: b) := by simp
      rw [h2, isFloatLit_cons c _ hcne,
        show c :: (t ++ '.' :: b) = (c :: t) ++ '.' :: b from rfl, hbreak]
      simp [hda, hdb]

theorem isIntLit_floatChars (m : Int) (e : Nat) :
    isIntLit (floatChars m e) = false := by
  obtain ⟨a, b, heq, hda, hdb, hbl, hval⟩ := floatChars_spec m e
  have hdots : ∀ cs : Chars, '.' ∈ cs → isDigits cs = false := by
    intro cs hmm
    simp only [isDigits]
    rw [isDigits_false_of_mem cs '.' hmm dot_not_digit]
    simp
  by_cases hm : m < 0
  · rw [heq, if_pos hm]
    have h2 : ['-'] ++ a ++ '.' :: b = '-' :: (a ++ '.' :: b) := by simp
    rw [h2, isIntLit_cons, if_pos rfl]
    exact hdots _ (by simp)
  · rw [heq, if_neg hm]
    cases a with
    | nil => simp [isDigits] at hda
    | cons c t =>
      have h2 : ([] : Chars) ++ c :: t ++ '.' :: b = c :: (t ++ '.' :: b) := by simp
      rw [h2, isIntLit_cons]
      split
      · exact hdots _ (by simp)
      · exact hdots _ (by simp)

/-- Escape one character for a quoted TOON string. -/
def escChar (c : Char) : Chars :=
  if c = '"' then ['\\', '"']
  else if c = '\\' then ['\\', '\\']
  else if c = '\n' then ['\\', 'n']
  else [c]

/-- Escape a whole character list. -/
def escChars : Chars → Chars
  | [] => []
  | c :: cs => escChar c ++ escChars cs

/-- A quoted TOON string literal: `"` + escaped content + `"`. -/
def quoteChars (cs : Chars) : Chars := '"' :: (escChars cs ++ ['"'])

/-- Parse the remainder of a quoted literal (after the opening `"`); returns
the unescaped content and the characters after the closing `"`. -/
def parseQuotedAux : Chars → Option (Chars × Chars)
  | [] => none
  | c :: rest =>
    if c = '"' then some ([], rest)
    else if c = '\\' then
      match rest with
      | [] => none
      | e :: rest2 =>
        (if e = '"' then some '"'
         else if e = '\\' then some '\\'
         else if e = 'n' then some '\n'
         else none).bind fun u =>
          (parseQuotedAux rest2).map fun p => (u :: p.1, p.2)
    else (parseQuotedAux rest).map fun p => (c :: p.1, p.2)

theorem escChars_no_newline (cs : Chars) : '\n' ∉ escChars cs := by
  induction cs with
  | nil => simp [escChars]
  | cons c cs ih =>
    simp only [escChars, escChar]
    intro hm
    rcases List.mem_append.mp hm with hm | hm
    · split at hm
      · simp at hm
      · split at hm
        · simp at hm
        · split at hm
          · simp at hm
          · next h1 h2 h3 =>
            simp only [List.mem_singleton] at hm
            exact h3 (hm ▸ rfl)
    · exact ih hm

theorem parseQuotedAux_quote (rest : Chars) :
    parseQuotedAux ('"' :: rest) = some ([], rest) := by
  rw [parseQuotedAux.eq_def]
  simp

theorem parseQuotedAux_escape (e : Char) (rest : Chars) :
    parseQuotedAux ('\\' :: e :: rest) =
      (if e = '"' then some '"'
       else if e = '\\' then some '\\'
       else if e = 'n' then some '\n'
       else none).bind fun u =>
        (parseQuotedAux rest).map fun p => (u :: p.1, p.2) := by
  rw [parseQuotedAux.eq_def]
  simp

theorem parseQuotedAux_plain (c : Char) (rest : Chars)
    (h1 : ¬c = '"') (h2 : ¬c = '\\') :
    parseQuotedAux (c :: rest) =
      (parseQuotedAux rest).map fun p => (c :: p.1, p.2) := by
  rw [parseQuotedAux.eq_def]
  simp [h1, h2]

theorem escChar_quote : escChar '"' = ['\\', '"'] := rfl

theorem escChar_backslash : escChar '\\' = ['\\', '\\'] := rfl

theorem escChar_newline : escChar '\n' = ['\\', 'n'] := rfl

theorem escChar_plain (c : Char) (h1 : ¬c = '"') (h2 : ¬c = '\\')
    (h3 : ¬c = '\n') : escChar c = [c] := by
  unfold escChar
  rw [if_neg h1, if_neg h2, if_neg h3]

theorem parseQuotedAux_esc (s : Chars) (rest : Chars) :
    parseQuotedAux (escChars s ++ '"' :: rest) = some (s, rest) := by
  induction s with
  | nil =>
    rw [show escChars [] = [] from rfl, List.nil_append, parseQuotedAux_quote]
  | cons c s ih =>
    by_cases h1 : c = '"'
    · subst h1
      simp only [escChars, escChar_quote, List.cons_append, List.nil_append]
      rw [parseQuotedAux_escape, ih]
      rfl
    · by_cases h2 : c = '\\'
      · subst h2
        simp only [escChars, escChar_backslash, List.cons_append, List.nil_append]
        rw [parseQuotedAux_escape, ih]
        rfl
      · by_cases h3 : c = '\n'
        · subst h3
          simp only [escChars, escChar_newline, List.cons_append, List.nil_append]
          rw [parseQuotedAux_escape, ih]
          rfl
        · simp only [escChars, escChar_plain c h1 h2 h3, List.cons_append,
            List.nil_append]
          rw [parseQuotedAux_plain c _ h1 h2, ih]
          rfl

/-- Modelled from the spec: the recursively defined Value domain of the
Serialization Codec (spec section 3) — null, boolean, integer, float,
string, ordered sequence, or string-keyed mapping.  A Python float is
represented by its decimal digits: `float m e` stands for `m / 10 ^ (e+1)`,
so every float carries at least one fractional digit, matching the
`digits.digits` wire form produced for floats. -/
inductive Value where
  | null
  | bool (b : Bool)
  | int (n : Int)
  | float (m : Int) (e : Nat)
  | str (s : String)
  | list (xs : List Value)
  | dict (kvs : List (String × Value))

/-- Characters that may appear in an unquoted string or bare key: everything
except the characters that are meaningful to the TOON syntax. -/
def plainChar (c : Char) : Bool :=
  !(c == '"' || c == '\\' || c == '\n' || c == ',' || c == ':' ||
    c == '[' || c == ']' || c == '{' || c == '}' || c == '#')

/-- A string that may be written bare (unquoted) as a scalar: nonempty, made
of plain characters, no leading/trailing space, no leading dash, and not
confusable with a reserved word or a numeric literal. -/
def bareOk (cs : Chars) : Bool :=
  match cs with
  | [] => false
  | c :: rest =>
    !(c == ' ') && !(c == '-') &&
    (c :: rest).all plainChar &&
    !((c :: rest).getLast? == some ' ') &&
    !(isIntLit (c :: rest)) && !(isFloatLit (c :: rest)) &&
    !(c :: rest == "null".data) && !(c :: rest == "true".data) &&
    !(c :: rest == "false".data)

/-- A mapping key that may be written bare (followed directly by `:`). -/
def keyOk (cs : Chars) : Bool :=
  match cs with
  | [] => false
  | c :: rest =>
    !(c == ' ') && !(c == '-') &&
    (c :: rest).all plainChar &&
    !((c :: rest).getLast? == some ' ')

/-- Encoding of a Python string value: bare if unambiguous, quoted otherwise. -/
def strChars (s : String) : Chars :=
  if bareOk s.data then s.data else quoteChars s.data

/-- Encoding of a mapping key. -/
def keyChars (k : String) : Chars :=
  if keyOk k.data then k.data else quoteChars k.data

/-- Values encoded inline on a single line (scalars and empty containers). -/
def isInline : Value → Bool
  | .list (_ :: _) => false
  | .dict (_ :: _) => false
  | _ => true

/-- Modelled from the spec: scalar encoding rules of the Codec (spec 4.1) —
booleans as `true`/`false`, null as `null`, numbers in canonical decimal
form (integers without a point, floats with one), strings bare unless
ambiguous (then quoted and escaped), and canonical distinct forms for the
empty mapping and the empty sequence. -/
def encodeScalar : Value → Chars
  | .null => "null".data
  | .bool true => "true".data
  | .bool false => "false".data
  | .int n => intToChars n
  | .float m e => floatChars m e
  | .str s => strChars s
  | .list [] => ['[', ']']
  | .list (_ :: _) => []
  | .dict [] => ['{', '}']
  | .dict (_ :: _) => []

/-- Scalar decoding for anything that is not a reserved literal. -/
def parseScalarRest (cs : Chars) : Option Value :=
  match cs with
  | [] => none
  | c :: rest =>
    if c = '"' then
      match parseQuotedAux rest with
      | some (s, []) => some (.str (String.mk s))
      | _ => none
    else if isIntLit (c :: rest) then some (.int (parseIntLit (c :: rest)))
    else if isFloatLit (c :: rest) then
      some (.float (parseFloatLit (c :: rest)).1 (parseFloatLit (c :: rest)).2)
    else some (.str (String.mk (c :: rest)))

/-- Modelled from the spec: scalar decoding rules of the Codec (spec 4.1) —
reserved literals, quoted strings (unescaped), numeric literals with the
integer/float distinction reconstructed from the literal form, and bare
text otherwise. -/
def parseScalar (cs : Chars) : Option Value :=
  if cs = "null".data then some .null
  else if cs = "true".data then some (.bool true)
  else if cs = "false".data then some (.bool false)
  else if cs = ['{', '}'] then some (.dict [])
  else if cs = ['[', ']'] then some (.list [])
  else parseScalarRest cs

theorem null_data_eq : "null".data = ['n', 'u', 'l', 'l'] := rfl

theorem true_data_eq : "true".data = ['t', 'r', 'u', 'e'] := rfl

theorem false_data_eq : "false".data = ['f', 'a', 'l', 's', 'e'] := rfl

theorem cons_ne_lit (c : Char) (t : Chars) (d : Char) (ds : Chars) (h : ¬c = d) :
    ¬(c :: t = d :: ds) := by
  intro hh
  injection hh with h1 _
  exact h h1

theorem intToChars_head (n : Int) :
    ∃ c t, intToChars n = c :: t ∧ (c = '-' ∨ c.isDigit = true) := by
  unfold intToChars
  split
  · exact ⟨'-', natToChars n.natAbs, rfl, Or.inl rfl⟩
  · rcases h : natToChars n.natAbs with _ | ⟨c, t⟩
    · exact absurd h (natToChars_ne_nil n.natAbs)
    · exact ⟨c, t, rfl, Or.inr (natToChars_digits n.natAbs c (h ▸ List.mem_cons_self c t))⟩

theorem floatChars_head (m : Int) (e : Nat) :
    ∃ c t, floatChars m e = c :: t ∧ (c = '-' ∨ c.isDigit = true) := by
  obtain ⟨a, b, heq, hda, hdb, hbl, hval⟩ := floatChars_spec m e
  by_cases hm : m < 0
  · rw [heq, if_pos hm]
    exact ⟨'-', a ++ '.' :: b, by simp, Or.inl rfl⟩
  · rw [heq, if_neg hm]
    cases a with
    | nil => simp [isDigits] at hda
    | cons c t =>
      exact ⟨c, t ++ '.' :: b, by simp, Or.inr (isDigits_head c t hda)⟩

theorem numeric_head_facts (c : Char) (hc : c = '-' ∨ c.isDigit = true) :
    ¬c = 'n' ∧ ¬c = 't' ∧ ¬c = 'f' ∧ ¬c = '{' ∧ ¬c = '[' ∧ ¬c = '"' := by
  rcases hc with h | h
  · subst h
    refine ⟨by decide, by decide, by decide, by decide, by decide, by decide⟩
  · refine ⟨?_, ?_, ?_, ?_, ?_, ?_⟩ <;>
      (intro hh; rw [hh] at h; simp at h)

theorem parseScalar_nonreserved (cs : Chars)
    (h1 : ¬cs = "null".data) (h2 : ¬cs = "true".data) (h3 : ¬cs = "false".data)
    (h4 : ¬cs = ['{', '}']) (h5 : ¬cs = ['[', ']']) :
    parseScalar cs = parseScalarRest cs := by
  unfold parseScalar
  rw [if_neg h1, if_neg h2, if_neg h3, if_neg h4, if_neg h5]

theorem parseScalarRest_quote (rest : Chars) :
    parseScalarRest ('"' :: rest) =
      match parseQuotedAux rest with
      | some (s, []) => some (.str (String.mk s))
      | _ => none := by
  rw [parseScalarRest.eq_def]
  simp

theorem parseScalarRest_cons (c : Char) (rest : Chars) (hq : ¬c = '"') :
    parseScalarRest (c :: rest) =
      (if isIntLit (c :: rest) then some (.int (parseIntLit (c :: rest)))
       else if isFloatLit (c :: rest) then
         some (.float (parseFloatLit (c :: rest)).1 (parseFloatLit (c :: rest)).2)
       else some (.str (String.mk (c :: rest)))) := by
  rw [parseScalarRest.eq_def]
  simp [hq]

theorem plainChar_spec (c : Char) (h : plainChar c = true) :
    ¬c = '"' ∧ ¬c = '\\' ∧ ¬c = '\n' ∧ ¬c = ',' ∧ ¬c = ':' ∧ ¬c = '[' ∧
    ¬c = ']' ∧ ¬c = '{' ∧ ¬c = '}' ∧ ¬c = '#' := by
  simp only [plainChar, Bool.not_eq_eq_eq_not, Bool.not_true, Bool.or_eq_false_iff,
    beq_eq_false_iff_ne, ne_eq] at h
  exact ⟨h.1.1.1.1.1.1.1.1.1, h.1.1.1.1.1.1.1.1.2, h.1.1.1.1.1.1.1.2,
    h.1.1.1.1.1.1.2, h.1.1.1.1.1.2, h.1.1.1.1.2, h.1.1.1.2, h.1.1.2, h.1.2, h.2⟩

theorem plain_ne_braces (cs : Chars) (hp : ∀ c ∈ cs, plainChar c = true) :
    ¬cs = ['{', '}'] ∧ ¬cs = ['[', ']'] := by
  constructor
  · intro h
    have := hp '{' (by rw [h]; simp)
    simp [plainChar] at this
  · intro h
    have := hp '[' (by rw [h]; simp)
    simp [plainChar] at this

theorem bareOk_spec (cs : Chars) (h : bareOk cs = true) :
    (∃ c t, cs = c :: t ∧ ¬c = ' ' ∧ ¬c = '-') ∧ (∀ c ∈ cs, plainChar c = true) ∧
    cs.getLast? ≠ some ' ' ∧ isIntLit cs = false ∧ isFloatLit cs = false ∧
    cs ≠ "null".data ∧ cs ≠ "true".data ∧ cs ≠ "false".data := by
  cases cs with
  | nil => simp [bareOk] at h
  | cons c t =>
    simp only [bareOk, Bool.and_eq_true, Bool.not_eq_eq_eq_not, Bool.not_true,
      beq_eq_false_iff_ne, ne_eq, List.all_eq_true] at h
    obtain ⟨⟨⟨⟨⟨⟨⟨⟨hsp, hdash⟩, hplain⟩, hlast⟩, hint⟩, hfloat⟩, hnull⟩, htrue⟩,
      hfalse⟩ := h
    refine ⟨⟨c, t, rfl, hsp, hdash⟩, hplain, ?_, ?_, ?_, hnull, htrue, hfalse⟩
    · intro hh
      exact hlast (by rw [hh])
    · simpa using hint
    · simpa using hfloat

theorem keyOk_spec (cs : Chars) (h : keyOk cs = true) :
    (∃ c t, cs = c :: t ∧ ¬c = ' ' ∧ ¬c = '-') ∧ (∀ c ∈ cs, plainChar c = true) ∧
    cs.getLast? ≠ some ' ' := by
  cases cs with
  | nil => simp [keyOk] at h
  | cons c t =>
    simp only [keyOk, Bool.and_eq_true, Bool.not_eq_eq_eq_not, Bool.not_true,
      beq_eq_false_iff_ne, ne_eq, List.all_eq_true] at h
    obtain ⟨⟨⟨hsp, hdash⟩, hplain⟩, hlast⟩ := h
    exact ⟨⟨c, t, rfl, hsp, hdash⟩, hplain, fun hh => hlast (by rw [hh])⟩

theorem parseScalar_encodeScalar (v : Value) (h : isInline v = true) :
    parseScalar (encodeScalar v) = some v := by
  cases v with
  | null => rfl
  | bool b => cases b <;> rfl
  | int n =>
    obtain ⟨c, t, heq, hc⟩ := intToChars_head n
    obtain ⟨hn, ht, hf, hbr, hsq, hq⟩ := numeric_head_facts c hc
    show parseScalar (intToChars n) = some (.int n)
    rw [heq, parseScalar_nonreserved _
      (null_data_eq ▸ cons_ne_lit c t 'n' _ hn)
      (true_data_eq ▸ cons_ne_lit c t 't' _ ht)
      (false_data_eq ▸ cons_ne_lit c t 'f' _ hf)
      (cons_ne_lit c t '{' _ hbr) (cons_ne_lit c t '[' _ hsq),
      parseScalarRest_cons c t hq, ← heq, isIntLit_intToChars n,
      parseIntLit_intToChars n]
    rfl
  | float m e =>
    obtain ⟨c, t, heq, hc⟩ := floatChars_head m e
    obtain ⟨hn, ht, hf, hbr, hsq, hq⟩ := numeric_head_facts c hc
    show parseScalar (floatChars m e) = some (.float m e)
    rw [heq, parseScalar_nonreserved _
      (null_data_eq ▸ cons_ne_lit c t 'n' _ hn)
      (true_data_eq ▸ cons_ne_lit c t 't' _ ht)
      (false_data_eq ▸ cons_ne_lit c t 'f' _ hf)
      (cons_ne_lit c t '{' _ hbr) (cons_ne_lit c t '[' _ hsq),
      parseScalarRest_cons c t hq, ← heq, isIntLit_floatChars m e,
      isFloatLit_floatChars m e, parseFloatLit_floatChars m e]
    rfl
  | str s =>
    show parseScalar (strChars s) = some (.str s)
    unfold strChars
    split
    · next hbare =>
      obtain ⟨⟨c, t, hcons, hsp, hdash⟩, hplain, hlast, hint, hfloat, hnull,
        htrue, hfalse⟩ := bareOk_spec s.data hbare
      obtain ⟨hbr, hsq⟩ := plain_ne_braces s.data hplain
      have hq : ¬c = '"' := (plainChar_spec c (hplain c (hcons ▸ List.mem_cons_self c t))).1
      rw [parseScalar_nonreserved _ hnull htrue hfalse hbr hsq, hcons,
        parseScalarRest_cons c t hq, ← hcons, hint, hfloat]
      simp only [if_false, Bool.false_eq_true]
    · next hbare =>
      show parseScalar ('"' :: (escChars s.data ++ ['"'])) = some (.str s)
      rw [parseScalar_nonreserved _
        (null_data_eq ▸ cons_ne_lit _ _ 'n' _ (by decide))
        (true_data_eq ▸ cons_ne_lit _ _ 't' _ (by decide))
        (false_data_eq ▸ cons_ne_lit _ _ 'f' _ (by decide))
        (cons_ne_lit _ _ '{' _ (by decide)) (cons_ne_lit _ _ '[' _ (by decide)),
        parseScalarRest_quote,
        show escChars s.data ++ ['"'] = escChars s.data ++ '"' :: [] from rfl,
        parseQuotedAux_esc]
  | list xs =>
    cases xs with
    | nil => rfl
    | cons x xs => simp [isInline] at h
  | dict kvs =>
    cases kvs with
    | nil => rfl
    | cons kv kvs => simp [isInline] at h

/-- Values allowed as cells of a compact tabular row: scalars whose bare
encodings are comma-free. -/
def cellOk : Value → Bool
  | .null => true
  | .bool _ => true
  | .int _ => true
  | .float _ _ => true
  | .str s => bareOk s.data
  | .list _ => false
  | .dict _ => false

/-- All values of a mapping are tabular-cell safe. -/
def rowOk (kvs : List (String × Value)) : Bool :=
  kvs.all (fun kv => cellOk kv.2)

/-- Modelled from the spec: a uniform tabular sequence (spec 4.1) — a
nonempty sequence whose elements are mappings with one identical key list,
here further restricted (as the compact comma-joined row form requires) to
bare-safe keys and scalar comma-free cell values. -/
def tabularOk (xs : List Value) : Bool :=
  match xs with
  | [] => false
  | x :: rest =>
    match x with
    | .dict kvs0 =>
      !kvs0.isEmpty &&
      (kvs0.map Prod.fst).all (fun k => keyOk k.data) &&
      rowOk kvs0 &&
      rest.all (fun y =>
        match y with
        | .dict kvs => (kvs.map Prod.fst == kvs0.map Prod.fst) && rowOk kvs
        | _ => false)
    | _ => false

/-- Comma-joined cell encodings of one tabular row. -/
def rowChars (kvs : List (String × Value)) : Chars :=
  List.intercalate [','] (kvs.map (fun kv => encodeScalar kv.2))

/-- Tabular header: count in square brackets, shared key list in braces. -/
def headerChars (n : Nat) (keys : List String) : Chars :=
  '[' :: (natToChars n ++ ']' :: '{' ::
    (List.intercalate [','] (keys.map String.data) ++ '}' :: [':']))

/-- Key list of the first element of a tabular sequence. -/
def tabHeaderKeys (xs : List Value) : List String :=
  match xs with
  | .dict kvs0 :: _ => kvs0.map Prod.fst
  | _ => []

/-- A tabular row rendered as a physical line at indent `d`. -/
def rowLine (d : Nat) : Value → Line
  | .dict kvs => (d, rowChars kvs)
  | _ => (d, [])

/-- Header plus row lines of a tabular sequence. -/
def tabLines (xs : List Value) (d : Nat) : List Line :=
  (d, headerChars xs.length (tabHeaderKeys xs)) :: xs.map (rowLine (d + 2))

mutual

/-- Modelled from the spec: the line-oriented encoding of a Value at indent
`d` (spec 4.1) — scalars inline, mappings as one `key: value` line per
entry with nested blocks indented, uniform tabular sequences in the compact
header-plus-rows form, and other sequences as dash-marked items. -/
def encLines (v : Value) (d : Nat) : List Line :=
  if isInline v then [(d, encodeScalar v)]
  else
    match v with
    | .dict kvs => encEntries kvs d
    | .list xs => if tabularOk xs then tabLines xs d else encItems xs d
    | _ => []

/-- Lines of the entries of a (nonempty) mapping at indent `d`. -/
def encEntries (kvs : List (String × Value)) (d : Nat) : List Line :=
  match kvs with
  | [] => []
  | (k, v) :: rest =>
    (if isInline v then [(d, keyChars k ++ ':' :: ' ' :: encodeScalar v)]
     else (d, keyChars k ++ [':']) :: encLines v (d + 2)) ++ encEntries rest d

/-- Lines of the items of a (non-tabular) sequence at indent `d`. -/
def encItems (xs : List Value) (d : Nat) : List Line :=
  match xs with
  | [] => []
  | x :: rest =>
    (if isInline x then [(d, '-' :: ' ' :: encodeScalar x)]
     else (d, ['-']) :: encLines x (d + 2)) ++ encItems rest d

end

/-- Physical text of one line: indent spaces, then content. -/
def renderLine (l : Line) : Chars := List.replicate l.1 ' ' ++ l.2

/-- Physical text of a line list, newline-joined. -/
def render (ls : List Line) : Chars := List.intercalate ['\n'] (ls.map renderLine)

/-- Embedding of `to_toon` (`toon_utils.py`): convert a Python data
structure to its TOON text (delegates to the Codec's encode). -/
def to_toon (v : Value) : String := String.mk (render (encLines v 0))

/-- Parse a `key:` occurrence at the start of an entry line; returns the key
and what follows the colon.  Fails on lines that carry no (bare or quoted)
key-colon introduction, which is what distinguishes a mapping line. -/
def parseKeyFrom (cs : Chars) : Option (String × Chars) :=
  match cs with
  | [] => none
  | c :: rest =>
    if c = '"' then
      match parseQuotedAux rest with
      | some (k, ':' :: r2) => some (String.mk k, r2)
      | _ => none
    else
      match breakAtChar ':' (c :: rest) with
      | some (a, b) => some (String.mk a, b)
      | none => none

/-- Parse a tabular header line into element count and shared keys. -/
def parseHeader (cs : Chars) : Option (Nat × List String) :=
  match cs with
  | '[' :: rest =>
    match breakAtChar ']' rest with
    | some (ncs, r2) =>
      if isDigits ncs then
        match r2 with
        | '{' :: r3 =>
          match breakAtChar '}' r3 with
          | some (kcs, r4) =>
            if r4 = [':'] then
              some (charsToNat ncs, (splitOnChar ',' kcs).map String.mk)
            else none
          | none => none
        | _ => none
      else none
    | none => none
  | _ => none

/-- Parse every cell of a comma-split row. -/
def parseCellList : List Chars → Option (List Value)
  | [] => some []
  | c :: rest =>
    match parseScalar c, parseCellList rest with
    | some v, some vs => some (v :: vs)
    | _, _ => none

/-- Parse one tabular row line against the header's key list. -/
def parseRow (keys : List String) (cs : Chars) : Option Value :=
  match parseCellList (splitOnChar ',' cs) with
  | some vs => if vs.length = keys.length then some (.dict (keys.zip vs)) else none
  | none => none

/-- Parse exactly `n` tabular rows at indent `i`. -/
def parseRows (keys : List String) (i : Nat) : Nat → List Line → Option (List Value × List Line)
  | 0, ls => some ([], ls)
  | n + 1, ls =>
    match ls with
    | (j, c) :: tl =>
      if j = i then
        match parseRow keys c, parseRows keys i n tl with
        | some v, some (vs, rest) => some (v :: vs, rest)
        | _, _ => none
      else none
    | [] => none

/-- A dash-marked sequence-item line. -/
def isItemLine (c : Chars) : Bool :=
  match c with
  | ['-'] => true
  | '-' :: ' ' :: _ => true
  | _ => false

mutual

/-- Modelled from the spec: block decoding (spec 4.1, inverse of
`encLines`), fuel-driven; parses one value whose first line sits at indent
`i` and returns it with the unconsumed lines. -/
def parseBlock : Nat → List Line → Nat → Option (Value × List Line)
  | 0, _, _ => none
  | fuel + 1, ls, i =>
    match ls with
    | [] => none
    | (j, c) :: tl =>
      if j = i then
        if c = ['{', '}'] then some (.dict [], tl)
        else if c = ['[', ']'] then some (.list [], tl)
        else
          match parseHeader c with
          | some (n, keys) =>
            match parseRows keys (i + 2) n tl with
            | some (vs, rest) => some (.list vs, rest)
            | none => none
          | none =>
            if isItemLine c then
              match parseItems fuel ls i with
              | some (x :: xs, rest) => some (.list (x :: xs), rest)
              | _ => none
            else
              match parseKeyFrom c with
              | some _ =>
                match parseEntries fuel ls i with
                | some (kv :: kvs, rest) => some (.dict (kv :: kvs), rest)
                | _ => none
              | none =>
                match parseScalar c with
                | some v => some (v, tl)
                | none => none
      else none

/-- Parse consecutive mapping-entry lines at indent `i`. -/
def parseEntries : Nat → List Line → Nat → Option (List (String × Value) × List Line)
  | 0, _, _ => none
  | fuel + 1, ls, i =>
    match ls with
    | [] => some ([], [])
    | (j, c) :: tl =>
      if j = i then
        match parseKeyFrom c with
        | some (k, r) =>
          match r with
          | [] =>
            match parseBlock fuel tl (i + 2) with
            | some (v, tl2) =>
              match parseEntries fuel tl2 i with
              | some (kvs, rest) => some ((k, v) :: kvs, rest)
              | none => none
            | none => none
          | ' ' :: sv =>
            match parseScalar sv with
            | some v =>
              match parseEntries fuel tl i with
              | some (kvs, rest) => some ((k, v) :: kvs, rest)
              | none => none
            | none => none
          | _ => none
        | none => some ([], ls)
      else some ([], ls)

/-- Parse consecutive dash-marked item lines at indent `i`. -/
def parseItems : Nat → List Line → Nat → Option (List Value × List Line)
  | 0, _, _ => none
  | fuel + 1, ls, i =>
    match ls with
    | [] => some ([], [])
    | (j, c) :: tl =>
      if j = i then
        match c with
        | ['-'] =>
          match parseBlock fuel tl (i + 2) with
          | some (v, tl2) =>
            match parseItems fuel tl2 i with
            | some (xs, rest) => some (v :: xs, rest)
            | none => none
          | none => none
        | '-' :: ' ' :: sv =>
          match parseScalar sv with
          | some v =>
            match parseItems fuel tl i with
            | some (xs, rest) => some (v :: xs, rest)
            | none => none
          | none => none
        | _ => some ([], (j, c) :: tl)
      else some ([], (j, c) :: tl)

end

/-- Split TOON text into (indent, content) lines. -/
def splitLinesRaw (cs : Chars) : List Line :=
  (splitOnChar '\n' cs).map (fun l => (countLeading ' ' l, l.drop (countLeading ' ' l)))

/-- Embedding of `from_toon` (`toon_utils.py`): parse TOON text back into a
Python data structure (delegates to the Codec's decode); `none` models the
decode error raised on malformed text. -/
def from_toon (s : String) : Option Value :=
  match parseBlock (2 * (splitLinesRaw s.data).length + 3) (splitLinesRaw s.data) 0 with
  | some (v, []) => some v
  | _ => none

theorem breakAtChar_none (t : Char) (cs : Chars) (h : t ∉ cs) :
    breakAtChar t cs = none := by
  induction cs with
  | nil => rfl
  | cons c rest ih =>
    simp only [List.mem_cons, not_or] at h
    have hct : ¬c = t := fun hh => h.1 hh.symm
    simp [breakAtChar, hct, ih h.2]

theorem intToChars_chars (n : Int) :
    ∀ c ∈ intToChars n, c.isDigit = true ∨ c = '-' := by
  intro c hc
  unfold intToChars at hc
  split at hc
  · rcases List.mem_cons.mp hc with h | h
    · exact Or.inr h
    · exact Or.inl (natToChars_digits n.natAbs c h)
  · exact Or.inl (natToChars_digits n.natAbs c hc)

theorem floatChars_chars (m : Int) (e : Nat) :
    ∀ c ∈ floatChars m e, c.isDigit = true ∨ c = '-' ∨ c = '.' := by
  obtain ⟨a, b, heq, hda, hdb, hbl, hval⟩ := floatChars_spec m e
  intro c hc
  rw [heq] at hc
  simp only [List.append_assoc, List.mem_append, List.mem_cons] at hc
  rcases hc with hc | hc | hc | hc
  · split at hc
    · simp only [List.mem_singleton] at hc
      exact Or.inr (Or.inl hc)
    · simp at hc
  · simp only [isDigits, Bool.and_eq_true, List.all_eq_true] at hda
    exact Or.inl (hda.2 c hc)
  · exact Or.inr (Or.inr hc)
  · simp only [isDigits, Bool.and_eq_true, List.all_eq_true] at hdb
    exact Or.inl (hdb.2 c hc)

/-- A line content is well formed for rendering when it is nonempty, does
not begin with a space, and contains no newline. -/
def goodContent (cs : Chars) : Prop :=
  cs ≠ [] ∧ (∀ x, cs.head? = some x → ¬x = ' ') ∧ '\n' ∉ cs

theorem numeric_chars_good (cs : Chars)
    (hk : ∀ c ∈ cs, c.isDigit = true ∨ c = '-' ∨ c = '.') :
    '\n' ∉ cs ∧ ':' ∉ cs ∧ ',' ∉ cs := by
  refine ⟨?_, ?_, ?_⟩ <;>
    (intro hm; rcases hk _ hm with h | h | h <;> simp_all)

theorem encodeScalar_good (v : Value) (h : isInline v = true) :
    goodContent (encodeScalar v) := by
  cases v with
  | null => exact ⟨by decide, by decide, by decide⟩
  | bool b => cases b <;> exact ⟨by decide, by decide, by decide⟩
  | int n =>
    obtain ⟨c, t, heq, hc⟩ := intToChars_head n
    refine ⟨by simp [encodeScalar, heq], ?_, ?_⟩
    · intro x hx
      simp only [encodeScalar, heq, List.head?_cons, Option.some.injEq] at hx
      subst hx
      rcases hc with h | h
      · subst h; decide
      · intro hh; rw [hh] at h; simp at h
    · show '\n' ∉ intToChars n
      intro hm
      rcases intToChars_chars n _ hm with h | h <;> simp_all
  | float m e =>
    obtain ⟨c, t, heq, hc⟩ := floatChars_head m e
    refine ⟨by simp [encodeScalar, heq], ?_, ?_⟩
    · intro x hx
      simp only [encodeScalar, heq, List.head?_cons, Option.some.injEq] at hx
      subst hx
      rcases hc with h | h
      · subst h; decide
      · intro hh; rw [hh] at h; simp at h
    · show '\n' ∉ floatChars m e
      intro hm
      rcases floatChars_chars m e _ hm with h | h | h <;> simp_all
  | str s =>
    show goodContent (strChars s)
    unfold strChars
    split
    · next hbare =>
      obtain ⟨⟨c, t, hcons, hsp, hdash⟩, hplain, hlast, _⟩ := bareOk_spec s.data hbare
      refine ⟨by simp [hcons], ?_, ?_⟩
      · intro x hx
        rw [hcons] at hx
        simp only [List.head?_cons, Option.some.injEq] at hx
        subst hx
        exact hsp
      · intro hm
        exact (plainChar_spec _ (hplain _ hm)).2.2.1 rfl
    · refine ⟨by simp [quoteChars], ?_, ?_⟩
      · intro x hx
        simp only [quoteChars, List.head?_cons, Option.some.injEq] at hx
        subst hx
        decide
      · simp only [quoteChars, List.mem_cons, List.mem_append, List.mem_singleton]
        intro hm
        rcases hm with h | h | h
        · simp at h
        · exact escChars_no_newline s.data h
        · simp at h
  | list xs =>
    cases xs with
    | nil => exact ⟨by decide, by decide, by decide⟩
    | cons x t => simp [isInline] at h
  | dict kvs =>
    cases kvs with
    | nil => exact ⟨by decide, by decide, by decide⟩
    | cons kv t => simp [isInline] at h

theorem keyChars_good (k : String) : goodContent (keyChars k) := by
  unfold keyChars
  split
  · next hkey =>
    obtain ⟨⟨c, t, hcons, hsp, hdash⟩, hplain, hlast⟩ := keyOk_spec k.data hkey
    refine ⟨by simp [hcons], ?_, ?_⟩
    · intro x hx
      rw [hcons] at hx
      simp only [List.head?_cons, Option.some.injEq] at hx
      subst hx
      exact hsp
    · intro hm
      exact (plainChar_spec _ (hplain _ hm)).2.2.1 rfl
  · refine ⟨by simp [quoteChars], ?_, ?_⟩
    · intro x hx
      simp only [quoteChars, List.head?_cons, Option.some.injEq] at hx
      subst hx
      decide
    · simp only [quoteChars, List.mem_cons, List.mem_append, List.mem_singleton]
      intro hm
      rcases hm with h | h | h
      · simp at h
      · exact escChars_no_newline k.data h
      · simp at h

theorem keyChars_head (k : String) :
    ∃ c t, keyChars k = c :: t ∧
      (c = '"' ∨ (plainChar c = true ∧ ¬c = ' ' ∧ ¬c = '-')) := by
  unfold keyChars
  split
  · next hkey =>
    obtain ⟨⟨c, t, hcons, hsp, hdash⟩, hplain, hlast⟩ := keyOk_spec k.data hkey
    exact ⟨c, t, hcons, Or.inr ⟨hplain c (hcons ▸ List.mem_cons_self c t), hsp, hdash⟩⟩
  · exact ⟨'"', escChars k.data ++ ['"'], rfl, Or.inl rfl⟩

theorem plainChar_no_colon (cs : Chars) (hp : ∀ c ∈ cs, plainChar c = true) :
    ':' ∉ cs := by
  intro hm
  exact (plainChar_spec _ (hp _ hm)).2.2.2.2.1 rfl

theorem parseKeyFrom_quote (rest : Chars) :
    parseKeyFrom ('"' :: rest) =
      match parseQuotedAux rest with
      | some (k, ':' :: r2) => some (String.mk k, r2)
      | _ => none := by
  rw [parseKeyFrom.eq_def]
  simp

theorem parseKeyFrom_bare (c : Char) (rest : Chars) (hq : ¬c = '"') :
    parseKeyFrom (c :: rest) =
      match breakAtChar ':' (c :: rest) with
      | some (a, b) => some (String.mk a, b)
      | none => none := by
  rw [parseKeyFrom.eq_def]
  simp [hq]

theorem parseKeyFrom_no_colon (c : Char) (rest : Chars) (hq : ¬c = '"')
    (h : ':' ∉ c :: rest) : parseKeyFrom (c :: rest) = none := by
  rw [parseKeyFrom_bare c rest hq, breakAtChar_none ':' _ h]

theorem parseKeyFrom_keyChars (k : String) (tail : Chars) :
    parseKeyFrom (keyChars k ++ ':' :: tail) = some (k, tail) := by
  unfold keyChars
  split
  · next hkey =>
    obtain ⟨⟨c, t, hcons, hsp, hdash⟩, hplain, hlast⟩ := keyOk_spec k.data hkey
    have hq : ¬c = '"' := (plainChar_spec c (hplain c (hcons ▸ List.mem_cons_self c t))).1
    have hnc : ':' ∉ k.data := plainChar_no_colon k.data hplain
    rw [hcons, List.cons_append, parseKeyFrom_bare c _ hq, ← List.cons_append,
      ← hcons, breakAtChar_append ':' k.data tail hnc]
  · show parseKeyFrom ('"' :: (escChars k.data ++ ['"']) ++ ':' :: tail) = some (k, tail)
    rw [List.cons_append, parseKeyFrom_quote, List.append_assoc,
      show (['"'] ++ ':' :: tail : Chars) = '"' :: ':' :: tail from rfl,
      parseQuotedAux_esc]
    show some (String.mk k.data, tail) = some (k, tail)
    rfl

theorem parseKeyFrom_encodeScalar (v : Value) (h : isInline v = true) :
    parseKeyFrom (encodeScalar v) = none := by
  cases v with
  | null => rfl
  | bool b => cases b <;> rfl
  | int n =>
    obtain ⟨c, t, heq, hc⟩ := intToChars_head n
    have hq : ¬c = '"' := (numeric_head_facts c hc).2.2.2.2.2
    show parseKeyFrom (intToChars n) = none
    rw [heq]
    refine parseKeyFrom_no_colon c t hq ?_
    rw [← heq]
    exact (numeric_chars_good _ (fun c hm =>
      (intToChars_chars n c hm).imp id Or.inl)).2.1
  | float m e =>
    obtain ⟨c, t, heq, hc⟩ := floatChars_head m e
    have hq : ¬c = '"' := (numeric_head_facts c hc).2.2.2.2.2
    show parseKeyFrom (floatChars m e) = none
    rw [heq]
    refine parseKeyFrom_no_colon c t hq ?_
    rw [← heq]
    exact (numeric_chars_good _ (floatChars_chars m e)).2.1
  | str s =>
    show parseKeyFrom (strChars s) = none
    unfold strChars
    split
    · next hbare =>
      obtain ⟨⟨c, t, hcons, hsp, hdash⟩, hplain, hlast, _⟩ := bareOk_spec s.data hbare
      have hq : ¬c = '"' := (plainChar_spec c (hplain c (hcons ▸ List.mem_cons_self c t))).1
      rw [hcons]
      refine parseKeyFrom_no_colon c t hq ?_
      rw [← hcons]
      exact plainChar_no_colon s.data hplain
    · show parseKeyFrom ('"' :: (escChars s.data ++ ['"'])) = none
      rw [parseKeyFrom_quote,
        show (escChars s.data ++ ['"'] : Chars) = escChars s.data ++ '"' :: [] from rfl,
        parseQuotedAux_esc]
  | list xs =>
    cases xs with
    | nil => rfl
    | cons x t => simp [isInline] at h
  | dict kvs =>
    cases kvs with
    | nil => rfl
    | cons kv t => simp [isInline] at h

theorem parseHeader_not_bracket (c : Char) (rest : Chars) (h : ¬c = '[') :
    parseHeader (c :: rest) = none := by
  rw [parseHeader.eq_def]
  simp [h]

theorem isItemLine_not_dash (c : Char) (rest : Chars) (h : ¬c = '-') :
    isItemLine (c :: rest) = false := by
  rw [isItemLine.eq_def]
  simp [h]

theorem isItemLine_dash_cons (d : Char) (rest : Chars) (h : ¬d = ' ') :
    isItemLine ('-' :: d :: rest) = false := by
  rw [isItemLine.eq_def]
  simp [h]

theorem isItemLine_intToChars (n : Int) : isItemLine (intToChars n) = false := by
  unfold intToChars
  split
  · rcases h : natToChars n.natAbs with _ | ⟨c, t⟩
    · exact absurd h (natToChars_ne_nil n.natAbs)
    · have hcd : c.isDigit = true := natToChars_digits n.natAbs c (h ▸ List.mem_cons_self c t)
      exact isItemLine_dash_cons c t (fun hh => by rw [hh] at hcd; simp at hcd)
  · rcases h : natToChars n.natAbs with _ | ⟨c, t⟩
    · exact absurd h (natToChars_ne_nil n.natAbs)
    · have hcd : c.isDigit = true := natToChars_digits n.natAbs c (h ▸ List.mem_cons_self c t)
      exact isItemLine_not_dash c t (fun hh => by rw [hh] at hcd; simp at hcd)

theorem isItemLine_floatChars (m : Int) (e : Nat) :
    isItemLine (floatChars m e) = false := by
  obtain ⟨a, b, heq, hda, hdb, hbl, hval⟩ := floatChars_spec m e
  by_cases hm : m < 0
  · rw [heq, if_pos hm]
    cases a with
    | nil => simp [isDigits] at hda
    | cons c t =>
      have hcd : c.isDigit = true := isDigits_head c t hda
      have h2 : (['-'] ++ c :: t ++ '.' :: b : Chars) = '-' :: c :: (t ++ '.' :: b) := by
        simp
      rw [h2]
      exact isItemLine_dash_cons c _ (fun hh => by rw [hh] at hcd; simp at hcd)
  · rw [heq, if_neg hm]
    cases a with
    | nil => simp [isDigits] at hda
    | cons c t =>
      have hcd : c.isDigit = true := isDigits_head c t hda
      have h2 : (([] : Chars) ++ c :: t ++ '.' :: b : Chars) = c :: (t ++ '.' :: b) := by
        simp
      rw [h2]
      exact isItemLine_not_dash c _ (fun hh => by rw [hh] at hcd; simp at hcd)

theorem parseHeader_none_of_head (cs : Chars)
    (h : ∀ c, cs.head? = some c → ¬c = '[') : parseHeader cs = none := by
  cases cs with
  | nil => rfl
  | cons c rest => exact parseHeader_not_bracket c rest (h c rfl)

theorem scalar_dispatch (v : Value) (h : isInline v = true)
    (h1 : ¬v = .dict []) (h2 : ¬v = .list []) :
    ¬encodeScalar v = ['{', '}'] ∧ ¬encodeScalar v = ['[', ']'] ∧
    parseHeader (encodeScalar v) = none ∧ isItemLine (encodeScalar v) = false := by
  cases v with
  | null => exact ⟨by decide, by decide, rfl, rfl⟩
  | bool b => cases b <;> exact ⟨by decide, by decide, rfl, rfl⟩
  | int n =>
    obtain ⟨c, t, heq, hc⟩ := intToChars_head n
    have hfacts := numeric_head_facts c hc
    have henc : encodeScalar (Value.int n) = intToChars n := rfl
    rw [henc, heq]
    refine ⟨cons_ne_lit c t '{' _ hfacts.2.2.2.1, cons_ne_lit c t '[' _ hfacts.2.2.2.2.1,
      parseHeader_not_bracket c t hfacts.2.2.2.2.1, ?_⟩
    rw [← heq]
    exact isItemLine_intToChars n
  | float m e =>
    obtain ⟨c, t, heq, hc⟩ := floatChars_head m e
    have hfacts := numeric_head_facts c hc
    have henc : encodeScalar (Value.float m e) = floatChars m e := rfl
    rw [henc, heq]
    refine ⟨cons_ne_lit c t '{' _ hfacts.2.2.2.1, cons_ne_lit c t '[' _ hfacts.2.2.2.2.1,
      parseHeader_not_bracket c t hfacts.2.2.2.2.1, ?_⟩
    rw [← heq]
    exact isItemLine_floatChars m e
  | str s =>
    have henc : encodeScalar (Value.str s) = strChars s := rfl
    rw [henc]
    unfold strChars
    split
    · next hbare =>
      obtain ⟨⟨c, t, hcons, hsp, hdash⟩, hplain, hlast, _⟩ := bareOk_spec s.data hbare
      obtain ⟨hbr, hsq⟩ := plain_ne_braces s.data hplain
      have hpc := plainChar_spec c (hplain c (hcons ▸ List.mem_cons_self c t))
      rw [hcons]
      refine ⟨hcons ▸ hbr, hcons ▸ hsq,
        parseHeader_not_bracket c t hpc.2.2.2.2.2.1, isItemLine_not_dash c t hdash⟩
    · show ¬('"' :: (escChars s.data ++ ['"']) : Chars) = _ ∧
        ¬('"' :: (escChars s.data ++ ['"']) : Chars) = _ ∧ _ ∧ _
      refine ⟨cons_ne_lit '"' _ '{' _ (by decide), cons_ne_lit '"' _ '[' _ (by decide),
        parseHeader_not_bracket '"' _ (by decide), isItemLine_not_dash '"' _ (by decide)⟩
  | list xs =>
    cases xs with
    | nil => exact absurd rfl h2
    | cons x t => simp [isInline] at h
  | dict kvs =>
    cases kvs with
    | nil => exact absurd rfl h1
    | cons kv t => simp [isInline] at h

theorem parseBlock_braces (fuel i : Nat) (tl : List Line) :
    parseBlock (fuel + 1) ((i, ['{', '}']) :: tl) i = some (.dict [], tl) := by
  rw [parseBlock.eq_def]
  simp

theorem parseBlock_brackets (fuel i : Nat) (tl : List Line) :
    parseBlock (fuel + 1) ((i, ['[', ']']) :: tl) i = some (.list [], tl) := by
  rw [parseBlock.eq_def]
  simp

theorem parseBlock_scalar_line (fuel i : Nat) (c : Chars) (tl : List Line) (v : Value)
    (h1 : ¬c = ['{', '}']) (h2 : ¬c = ['[', ']'])
    (h3 : parseHeader c = none) (h4 : isItemLine c = false)
    (h5 : parseKeyFrom c = none) (h6 : parseScalar c = some v) :
    parseBlock (fuel + 1) ((i, c) :: tl) i = some (v, tl) := by
  rw [parseBlock.eq_def]
  simp [h1, h2, h3, h4, h5, h6]

theorem parseBlock_inline (fuel i : Nat) (v : Value) (tl : List Line)
    (h : isInline v = true) :
    parseBlock (fuel + 1) ((i, encodeScalar v) :: tl) i = some (v, tl) := by
  by_cases h1 : v = .dict []
  · subst h1
    exact parseBlock_braces fuel i tl
  · by_cases h2 : v = .list []
    · subst h2
      exact parseBlock_brackets fuel i tl
    · obtain ⟨d1, d2, d3, d4⟩ := scalar_dispatch v h h1 h2
      exact parseBlock_scalar_line fuel i _ tl v d1 d2 d3 d4
        (parseKeyFrom_encodeScalar v h) (parseScalar_encodeScalar v h)

theorem intercalate_two (s : Char) (a b : Chars) (t : List Chars) :
    List.intercalate [s] (a :: b :: t) = a ++ s :: List.intercalate [s] (b :: t) := by
  simp [List.intercalate, List.intersperse]

theorem intercalate_single (s : Char) (a : Chars) :
    List.intercalate [s] [a] = a := by
  simp [List.intercalate]

theorem mem_intercalate_sep (s : Char) (xss : List Chars) (c : Char)
    (h : c ∈ List.intercalate [s] xss) : c = s ∨ ∃ xs ∈ xss, c ∈ xs := by
  induction xss with
  | nil => simp [List.intercalate] at h
  | cons a t ih =>
    cases t with
    | nil =>
      rw [intercalate_single] at h
      exact Or.inr ⟨a, by simp, h⟩
    | cons b t2 =>
      rw [intercalate_two] at h
      rcases List.mem_append.mp h with hm | hm
      · exact Or.inr ⟨a, by simp, hm⟩
      · rcases List.mem_cons.mp hm with hm | hm
        · exact Or.inl hm
        · rcases ih hm with hm | ⟨xs, hx1, hx2⟩
          · exact Or.inl hm
          · exact Or.inr ⟨xs, by simp [hx1], hx2⟩

theorem cellOk_isInline (v : Value) (h : cellOk v = true) : isInline v = true := by
  cases v <;> simp_all [cellOk, isInline]

theorem cellOk_no_comma (v : Value) (h : cellOk v = true) :
    ',' ∉ encodeScalar v := by
  cases v with
  | null => decide
  | bool b => cases b <;> decide
  | int n =>
    exact (numeric_chars_good _ (fun c hm => (intToChars_chars n c hm).imp id Or.inl)).2.2
  | float m e => exact (numeric_chars_good _ (floatChars_chars m e)).2.2
  | str s =>
    have hbare : bareOk s.data = true := by simpa [cellOk] using h
    show ',' ∉ strChars s
    rw [strChars, if_pos hbare]
    obtain ⟨_, hplain, _⟩ := bareOk_spec s.data hbare
    intro hm
    exact (plainChar_spec _ (hplain _ hm)).2.2.2.1 rfl
  | list xs => simp [cellOk] at h
  | dict kvs => simp [cellOk] at h

theorem zip_map_fst_snd_eq (kvs : List (String × Value)) :
    (kvs.map Prod.fst).zip (kvs.map Prod.snd) = kvs := by
  induction kvs with
  | nil => rfl
  | cons kv t ih => simp [ih]

theorem parseCellList_map (kvs : List (String × Value)) (h : rowOk kvs = true) :
    parseCellList (kvs.map (fun kv => encodeScalar kv.2)) = some (kvs.map Prod.snd) := by
  induction kvs with
  | nil => rfl
  | cons kv t ih =>
    simp only [rowOk, List.all_cons, Bool.and_eq_true] at h
    simp only [List.map_cons, parseCellList,
      parseScalar_encodeScalar kv.2 (cellOk_isInline kv.2 h.1),
      ih (by simp [rowOk, h.2])]

theorem parseRow_rowChars (keys : List String) (kvs : List (String × Value))
    (hk : kvs.map Prod.fst = keys) (hne : kvs ≠ []) (hrow : rowOk kvs = true) :
    parseRow keys (rowChars kvs) = some (.dict kvs) := by
  have hcells : splitOnChar ',' (rowChars kvs) = kvs.map (fun kv => encodeScalar kv.2) := by
    refine splitOnChar_intercalate ',' _ (by simpa using hne) ?_
    intro cell hcell
    obtain ⟨kv, hkv, rfl⟩ := List.mem_map.mp hcell
    refine cellOk_no_comma kv.2 ?_
    simp only [rowOk, List.all_eq_true] at hrow
    exact hrow kv hkv
  unfold parseRow
  rw [hcells, parseCellList_map kvs hrow]
  have hlen : (kvs.map Prod.snd).length = keys.length := by
    rw [← hk]
    simp
  have hred : (match some (kvs.map Prod.snd) with
      | some vs => if vs.length = keys.length then
          some (Value.dict (keys.zip vs)) else none
      | none => none) =
      if (kvs.map Prod.snd).length = keys.length then
        some (Value.dict (keys.zip (kvs.map Prod.snd))) else none := rfl
  rw [hred, if_pos hlen, ← hk, zip_map_fst_snd_eq]

theorem parseRows_zero (keys : List String) (i : Nat) (ls : List Line) :
    parseRows keys i 0 ls = some ([], ls) := rfl

theorem parseRows_rows (keys : List String) (i : Nat) (xs : List Value)
    (rest : List Line)
    (hx : ∀ x ∈ xs, ∃ kvs, x = Value.dict kvs ∧ kvs.map Prod.fst = keys ∧
      kvs ≠ [] ∧ rowOk kvs = true) :
    parseRows keys i xs.length (xs.map (rowLine i) ++ rest) = some (xs, rest) := by
  induction xs with
  | nil => rfl
  | cons x t ih =>
    obtain ⟨kvs, rfl, hk, hne, hrow⟩ := hx x (by simp)
    have hrl : rowLine i (Value.dict kvs) = (i, rowChars kvs) := rfl
    simp only [List.length_cons, List.map_cons, hrl, List.cons_append, parseRows,
      if_pos rfl, parseRow_rowChars keys kvs hk hne hrow,
      ih (fun y hy => hx y (by simp [hy]))]
    simp

theorem map_mk_data (keys : List String) :
    (keys.map String.data).map String.mk = keys := by
  induction keys with
  | nil => rfl
  | cons k t ih => simp [ih]

theorem parseHeader_headerChars (n : Nat) (keys : List String)
    (hne : keys ≠ []) (hkeys : ∀ k ∈ keys, keyOk k.data = true) :
    parseHeader (headerChars n keys) = some (n, keys) := by
  have hdig := natToChars_digits n
  have hb1 : breakAtChar ']' (natToChars n ++ ']' :: '{' ::
      (List.intercalate [','] (keys.map String.data) ++ '}' :: [':'])) =
      some (natToChars n, '{' ::
        (List.intercalate [','] (keys.map String.data) ++ '}' :: [':'])) := by
    refine breakAtChar_append ']' _ _ ?_
    intro hm
    have := hdig _ hm
    simp at this
  have hb2 : breakAtChar '}' (List.intercalate [','] (keys.map String.data) ++
      '}' :: [':']) = some (List.intercalate [','] (keys.map String.data), [':']) := by
    refine breakAtChar_append '}' _ _ ?_
    intro hm
    rcases mem_intercalate_sep ',' _ _ hm with h | ⟨xs, hx1, hx2⟩
    · simp at h
    · obtain ⟨k, hk, rfl⟩ := List.mem_map.mp hx1
      obtain ⟨_, hplain, _⟩ := keyOk_spec k.data (hkeys k hk)
      exact (plainChar_spec _ (hplain _ hx2)).2.2.2.2.2.2.2.2.1 rfl
  have hsplit : splitOnChar ',' (List.intercalate [','] (keys.map String.data)) =
      keys.map String.data := by
    refine splitOnChar_intercalate ',' _ (by simpa using hne) ?_
    intro cell hcell
    obtain ⟨k, hk, rfl⟩ := List.mem_map.mp hcell
    obtain ⟨_, hplain, _⟩ := keyOk_spec k.data (hkeys k hk)
    intro hm
    exact (plainChar_spec _ (hplain _ hm)).2.2.2.1 rfl
  unfold headerChars
  rw [parseHeader.eq_def]
  simp only [hb1, hb2, hsplit, map_mk_data, charsToNat_natToChars,
    isDigits_of_all _ (natToChars_ne_nil n) hdig]
  simp

theorem tabularOk_spec (xs : List Value) (h : tabularOk xs = true) :
    xs ≠ [] ∧ tabHeaderKeys xs ≠ [] ∧
      (∀ k ∈ tabHeaderKeys xs, keyOk k.data = true) ∧
      ∀ x ∈ xs, ∃ kvs, x = Value.dict kvs ∧ kvs.map Prod.fst = tabHeaderKeys xs ∧
        kvs ≠ [] ∧ rowOk kvs = true := by
  cases xs with
  | nil => simp [tabularOk] at h
  | cons x rest =>
    cases x with
    | dict kvs0 =>
      simp only [tabularOk, Bool.and_eq_true] at h
      obtain ⟨⟨⟨hne0, hkey0⟩, hrow0⟩, hall⟩ := h
      have hkvs0 : kvs0 ≠ [] := by
        cases kvs0 with
        | nil => simp at hne0
        | cons a b => simp
      have hkeys : tabHeaderKeys (Value.dict kvs0 :: rest) = kvs0.map Prod.fst := rfl
      rw [hkeys]
      refine ⟨by simp, by simp [hkvs0], ?_, ?_⟩
      · intro k hk
        exact List.all_eq_true.mp hkey0 k hk
      · intro x hx
        rcases List.mem_cons.mp hx with rfl | hx
        · exact ⟨kvs0, rfl, rfl, hkvs0, hrow0⟩
        · have hy := List.all_eq_true.mp hall x hx
          cases x with
          | dict kvs =>
            simp only [Bool.and_eq_true, beq_iff_eq] at hy
            refine ⟨kvs, rfl, hy.1, ?_, hy.2⟩
            intro hnil
            rw [hnil] at hy
            simp only [List.map_nil] at hy
            exact hkvs0 (List.map_eq_nil_iff.mp hy.1.symm)
          | null => simp at hy
          | bool b => simp at hy
          | int n => simp at hy
          | float m e => simp at hy
          | str s => simp at hy
          | list ys => simp at hy
    | null => simp [tabularOk] at h
    | bool b => simp [tabularOk] at h
    | int n => simp [tabularOk] at h
    | float m e => simp [tabularOk] at h
    | str s => simp [tabularOk] at h
    | list ys => simp [tabularOk] at h

theorem head_append_left (a b : Chars) (h : a ≠ []) :
    (a ++ b).head? = a.head? := by
  cases a with
  | nil => exact absurd rfl h
  | cons c t => rfl

theorem goodContent_intercalate (cells : List Chars) (hne : cells ≠ [])
    (hgood : ∀ c ∈ cells, goodContent c) :
    goodContent (List.intercalate [','] cells) := by
  have hnl : '\n' ∉ List.intercalate [','] cells := by
    intro hm
    rcases mem_intercalate_sep ',' cells '\n' hm with h | ⟨xs, hx1, hx2⟩
    · simp at h
    · exact (hgood xs hx1).2.2 hx2
  cases cells with
  | nil => exact absurd rfl hne
  | cons a t =>
    obtain ⟨ha1, ha2, _⟩ := hgood a (by simp)
    cases t with
    | nil =>
      rw [intercalate_single]
      rw [intercalate_single] at hnl
      exact ⟨ha1, ha2, hnl⟩
    | cons b t2 =>
      rw [intercalate_two]
      rw [intercalate_two] at hnl
      refine ⟨by simp [ha1], ?_, hnl⟩
      intro x hx
      rw [head_append_left _ _ ha1] at hx
      exact ha2 x hx

theorem headerChars_shape (n : Nat) (keys : List String) :
    ∃ t, headerChars n keys = '[' :: t := ⟨_, rfl⟩

theorem headerChars_ne_braces (n : Nat) (keys : List String) :
    ¬headerChars n keys = ['{', '}'] := by
  intro hh
  unfold headerChars at hh
  injection hh with h1 _
  exact absurd h1 (by decide)

theorem headerChars_ne_brackets (n : Nat) (keys : List String) :
    ¬headerChars n keys = ['[', ']'] := by
  intro hh
  unfold headerChars at hh
  injection hh with _ h2
  rcases hcons : natToChars n with _ | ⟨c, t⟩
  · exact absurd hcons (natToChars_ne_nil n)
  · rw [hcons, List.cons_append] at h2
    injection h2 with h3 _
    have hcd := natToChars_digits n c (hcons ▸ List.mem_cons_self c t)
    rw [h3] at hcd
    simp at hcd

theorem headerChars_good (n : Nat) (keys : List String)
    (hkeys : ∀ k ∈ keys, keyOk k.data = true) :
    goodContent (headerChars n keys) := by
  refine ⟨by simp [headerChars], ?_, ?_⟩
  · intro x hx
    simp only [headerChars, List.head?_cons, Option.some.injEq] at hx
    subst hx
    decide
  · unfold headerChars
    intro hm
    rcases List.mem_cons.mp hm with h | h
    · simp at h
    · rcases List.mem_append.mp h with h | h
      · have := natToChars_digits n _ h
        simp at this
      · rcases List.mem_cons.mp h with h | h
        · simp at h
        · rcases List.mem_cons.mp h with h | h
          · simp at h
          · rcases List.mem_append.mp h with h | h
            · rcases mem_intercalate_sep ',' _ _ h with h | ⟨xs, hx1, hx2⟩
              · simp at h
              · obtain ⟨k, hk, rfl⟩ := List.mem_map.mp hx1
                obtain ⟨_, hplain, _⟩ := keyOk_spec k.data (hkeys k hk)
                exact (plainChar_spec _ (hplain _ hx2)).2.2.1 rfl
            · rcases List.mem_cons.mp h with h | h
              · simp at h
              · simp only [List.mem_singleton] at h
                simp at h

theorem rowChars_good (kvs : List (String × Value)) (hne : kvs ≠ [])
    (hrow : rowOk kvs = true) : goodContent (rowChars kvs) := by
  refine goodContent_intercalate _ (by simpa using hne) ?_
  intro c hc
  obtain ⟨kv, hkv, rfl⟩ := List.mem_map.mp hc
  simp only [rowOk, List.all_eq_true] at hrow
  exact encodeScalar_good kv.2 (cellOk_isInline kv.2 (hrow kv hkv))

/-- The lines that follow a block must start strictly less indented. -/
def lowNext (i : Nat) : List Line → Prop
  | [] => True
  | (j, _) :: _ => j < i

theorem encEntries_shape (kvs : List (String × Value)) (d : Nat) :
    kvs = [] ∨ ∃ c rest, encEntries kvs d = (d, c) :: rest := by
  cases kvs with
  | nil => exact Or.inl rfl
  | cons kv t =>
    refine Or.inr ?_
    rw [encEntries]
    split
    · exact ⟨_, _, rfl⟩
    · exact ⟨_, _, rfl⟩

theorem encItems_shape (xs : List Value) (d : Nat) :
    xs = [] ∨ ∃ c rest, encItems xs d = (d, c) :: rest := by
  cases xs with
  | nil => exact Or.inl rfl
  | cons x t =>
    refine Or.inr ?_
    rw [encItems]
    split
    · exact ⟨_, _, rfl⟩
    · exact ⟨_, _, rfl⟩

theorem encLines_inline (v : Value) (d : Nat) (h : isInline v = true) :
    encLines v d = [(d, encodeScalar v)] := by
  rw [encLines.eq_def, if_pos h]

theorem encLines_dict (kvs : List (String × Value)) (d : Nat) (h : kvs ≠ []) :
    encLines (.dict kvs) d = encEntries kvs d := by
  cases kvs with
  | nil => exact absurd rfl h
  | cons kv t =>
    rw [encLines, if_neg (by simp [isInline])]

theorem encLines_list (xs : List Value) (d : Nat) (h : xs ≠ []) :
    encLines (.list xs) d =
      if tabularOk xs then tabLines xs d else encItems xs d := by
  cases xs with
  | nil => exact absurd rfl h
  | cons x t =>
    rw [encLines, if_neg (by simp [isInline])]

theorem encLines_shape (v : Value) (d : Nat) :
    ∃ c rest, encLines v d = (d, c) :: rest := by
  by_cases hinl : isInline v = true
  · exact ⟨_, _, encLines_inline v d hinl⟩
  · cases v with
    | null => simp [isInline] at hinl
    | bool b => simp [isInline] at hinl
    | int n => simp [isInline] at hinl
    | float m e => simp [isInline] at hinl
    | str s => simp [isInline] at hinl
    | dict kvs =>
      cases kvs with
      | nil => simp [isInline] at hinl
      | cons kv t =>
        rw [encLines_dict _ d (by simp)]
        rcases encEntries_shape (kv :: t) d with hnil | ⟨c, rest, hsh⟩
        · simp at hnil
        · exact ⟨c, rest, hsh⟩
    | list xs =>
      cases xs with
      | nil => simp [isInline] at hinl
      | cons x t =>
        rw [encLines_list _ d (by simp)]
        split
        · exact ⟨_, _, rfl⟩
        · rcases encItems_shape (x :: t) d with hnil | ⟨c, rest, hsh⟩
          · simp at hnil
          · exact ⟨c, rest, hsh⟩

theorem lowNext_entries_append (kvs : List (String × Value)) (d : Nat)
    (rest : List Line) (h : lowNext d rest) :
    lowNext (d + 2) (encEntries kvs d ++ rest) := by
  rcases encEntries_shape kvs d with rfl | ⟨c, r, hsh⟩
  · show lowNext (d + 2) ([] ++ rest)
    rw [List.nil_append]
    cases rest with
    | nil => trivial
    | cons l t =>
      obtain ⟨j, cc⟩ := l
      show j < d + 2
      have : j < d := h
      omega
  · rw [hsh]
    show d < d + 2
    omega

theorem lowNext_items_append (xs : List Value) (d : Nat)
    (rest : List Line) (h : lowNext d rest) :
    lowNext (d + 2) (encItems xs d ++ rest) := by
  rcases encItems_shape xs d with rfl | ⟨c, r, hsh⟩
  · show lowNext (d + 2) ([] ++ rest)
    rw [List.nil_append]
    cases rest with
    | nil => trivial
    | cons l t =>
      obtain ⟨j, cc⟩ := l
      show j < d + 2
      have : j < d := h
      omega
  · rw [hsh]
    show d < d + 2
    omega

theorem goodContent_append (a b : Chars) (ha : goodContent a) (hb : '\n' ∉ b) :
    goodContent (a ++ b) := by
  obtain ⟨ha1, ha2, ha3⟩ := ha
  refine ⟨by simp [ha1], ?_, ?_⟩
  · intro x hx
    rw [head_append_left _ _ ha1] at hx
    exact ha2 x hx
  · intro hm
    rcases List.mem_append.mp hm with h | h
    · exact ha3 h
    · exact hb h

mutual

theorem encLines_good (v : Value) (d : Nat) :
    ∀ l ∈ encLines v d, goodContent l.2 := by
  by_cases hinl : isInline v = true
  · rw [encLines_inline v d hinl]
    intro l hl
    simp only [List.mem_singleton] at hl
    subst hl
    exact encodeScalar_good v hinl
  · cases v with
    | null => simp [isInline] at hinl
    | bool b => simp [isInline] at hinl
    | int n => simp [isInline] at hinl
    | float m e => simp [isInline] at hinl
    | str s => simp [isInline] at hinl
    | dict kvs =>
      cases kvs with
      | nil => simp [isInline] at hinl
      | cons kv t =>
        rw [encLines_dict _ d (by simp)]
        exact encEntries_good (kv :: t) d
    | list xs =>
      cases xs with
      | nil => simp [isInline] at hinl
      | cons x t =>
        rw [encLines_list _ d (by simp)]
        split
        · next htab =>
          obtain ⟨hne, hkne, hkeys, hx⟩ := tabularOk_spec (x :: t) htab
          intro l hl
          rcases List.mem_cons.mp hl with rfl | hl
          · exact headerChars_good _ _ hkeys
          · obtain ⟨y, hy, rfl⟩ := List.mem_map.mp hl
            obtain ⟨kvs, rfl, hk, hkne2, hrow⟩ := hx y hy
            exact rowChars_good kvs hkne2 hrow
        · exact encItems_good (x :: t) d

theorem encEntries_good (kvs : List (String × Value)) (d : Nat) :
    ∀ l ∈ encEntries kvs d, goodContent l.2 := by
  cases kvs with
  | nil => simp [encEntries]
  | cons kv t =>
    obtain ⟨k, v⟩ := kv
    rw [encEntries]
    intro l hl
    rcases List.mem_append.mp hl with hl | hl
    · split at hl
      · next hv =>
        simp only [List.mem_singleton] at hl
        subst hl
        refine goodContent_append _ _ (keyChars_good k) ?_
        intro hm
        rcases List.mem_cons.mp hm with h | h
        · simp at h
        · rcases List.mem_cons.mp h with h | h
          · simp at h
          · exact (encodeScalar_good v hv).2.2 h
      · next hv =>
        rcases List.mem_cons.mp hl with rfl | hl
        · refine goodContent_append _ _ (keyChars_good k) ?_
          intro hm
          simp only [List.mem_singleton] at hm
          simp at hm
        · exact encLines_good v (d + 2) l hl
    · exact encEntries_good t d l hl

theorem encItems_good (xs : List Value) (d : Nat) :
    ∀ l ∈ encItems xs d, goodContent l.2 := by
  cases xs with
  | nil => simp [encItems]
  | cons x t =>
    rw [encItems]
    intro l hl
    rcases List.mem_append.mp hl with hl | hl
    · split at hl
      · next hv =>
        simp only [List.mem_singleton] at hl
        subst hl
        refine ⟨by simp, by intro y hy; simp at hy; subst hy; decide, ?_⟩
        intro hm
        rcases List.mem_cons.mp hm with h | h
        · simp at h
        · rcases List.mem_cons.mp h with h | h
          · simp at h
          · exact (encodeScalar_good x hv).2.2 h
      · next hv =>
        rcases List.mem_cons.mp hl with rfl | hl
        · exact ⟨by simp, by intro y hy; simp at hy; subst hy; decide,
            by show '\n' ∉ ['-']; decide⟩
        · exact encLines_good x (d + 2) l hl
    · exact encItems_good t d l hl

end

theorem parseEntries_nil (fuel i : Nat) :
    parseEntries (fuel + 1) [] i = some ([], []) := by
  rw [parseEntries.eq_def]

theorem parseEntries_stop (fuel i j : Nat) (c : Chars) (tl : List Line)
    (h : ¬j = i) : parseEntries (fuel + 1) ((j, c) :: tl) i = some ([], (j, c) :: tl) := by
  rw [parseEntries.eq_def]
  simp [h]

theorem parseEntries_cons (fuel i : Nat) (c : Chars) (tl : List Line) :
    parseEntries (fuel + 1) ((i, c) :: tl) i =
      match parseKeyFrom c with
      | some (k, r) =>
        match r with
        | [] =>
          match parseBlock fuel tl (i + 2) with
          | some (v, tl2) =>
            match parseEntries fuel tl2 i with
            | some (kvs, rest) => some ((k, v) :: kvs, rest)
            | none => none
          | none => none
        | ' ' :: sv =>
          match parseScalar sv with
          | some v =>
            match parseEntries fuel tl i with
            | some (kvs, rest) => some ((k, v) :: kvs, rest)
            | none => none
          | none => none
        | _ => none
      | none => some ([], (i, c) :: tl) := by
  rw [parseEntries.eq_def]
  simp

theorem parseItems_nil (fuel i : Nat) :
    parseItems (fuel + 1) [] i = some ([], []) := by
  rw [parseItems.eq_def]

theorem parseItems_stop (fuel i j : Nat) (c : Chars) (tl : List Line)
    (h : ¬j = i) : parseItems (fuel + 1) ((j, c) :: tl) i = some ([], (j, c) :: tl) := by
  rw [parseItems.eq_def]
  simp [h]

theorem parseItems_cons (fuel i : Nat) (c : Chars) (tl : List Line) :
    parseItems (fuel + 1) ((i, c) :: tl) i =
      match c with
      | ['-'] =>
        match parseBlock fuel tl (i + 2) with
        | some (v, tl2) =>
          match parseItems fuel tl2 i with
          | some (xs, rest) => some (v :: xs, rest)
          | none => none
        | none => none
      | '-' :: ' ' :: sv =>
        match parseScalar sv with
        | some v =>
          match parseItems fuel tl i with
          | some (xs, rest) => some (v :: xs, rest)
          | none => none
        | none => none
      | _ => some ([], (i, c) :: tl) := by
  rw [parseItems.eq_def]
  simp

theorem parseBlock_zero (ls : List Line) (i : Nat) :
    parseBlock 0 ls i = none := by
  rw [parseBlock.eq_def]

theorem parseBlock_header (fuel i : Nat) (c : Chars) (tl : List Line)
    (n : Nat) (keys : List String)
    (h1 : ¬c = ['{', '}']) (h2 : ¬c = ['[', ']'])
    (h3 : parseHeader c = some (n, keys)) :
    parseBlock (fuel + 1) ((i, c) :: tl) i =
      match parseRows keys (i + 2) n tl with
      | some (vs, rest) => some (.list vs, rest)
      | none => none := by
  rw [parseBlock.eq_def]
  simp [h1, h2, h3]

theorem parseBlock_items (fuel i : Nat) (c : Chars) (tl : List Line)
    (h1 : ¬c = ['{', '}']) (h2 : ¬c = ['[', ']'])
    (h3 : parseHeader c = none) (h4 : isItemLine c = true) :
    parseBlock (fuel + 1) ((i, c) :: tl) i =
      match parseItems fuel ((i, c) :: tl) i with
      | some (x :: xs, rest) => some (.list (x :: xs), rest)
      | _ => none := by
  rw [parseBlock.eq_def]
  simp [h1, h2, h3, h4]

theorem parseBlock_dict (fuel i : Nat) (c : Chars) (tl : List Line)
    (k : String) (r : Chars)
    (h1 : ¬c = ['{', '}']) (h2 : ¬c = ['[', ']'])
    (h3 : parseHeader c = none) (h4 : isItemLine c = false)
    (h5 : parseKeyFrom c = some (k, r)) :
    parseBlock (fuel + 1) ((i, c) :: tl) i =
      match parseEntries fuel ((i, c) :: tl) i with
      | some (kv :: kvs, rest) => some (.dict (kv :: kvs), rest)
      | _ => none := by
  rw [parseBlock.eq_def]
  simp [h1, h2, h3, h4, h5]

theorem entry_line_dispatch (k : String) (tail : Chars) :
    ¬(keyChars k ++ ':' :: tail) = ['{', '}'] ∧
    ¬(keyChars k ++ ':' :: tail) = ['[', ']'] ∧
    parseHeader (keyChars k ++ ':' :: tail) = none ∧
    isItemLine (keyChars k ++ ':' :: tail) = false := by
  obtain ⟨c0, t0, hsh, hc⟩ := keyChars_head k
  rw [hsh, List.cons_append]
  have hbr : ¬c0 = '{' ∧ ¬c0 = '[' ∧ ¬c0 = '-' := by
    rcases hc with rfl | ⟨hp, hs, hd⟩
    · exact ⟨by decide, by decide, by decide⟩
    · have hps := plainChar_spec c0 hp
      exact ⟨hps.2.2.2.2.2.2.2.1, hps.2.2.2.2.2.1, hd⟩
  exact ⟨cons_ne_lit _ _ _ _ hbr.1, cons_ne_lit _ _ _ _ hbr.2.1,
    parseHeader_not_bracket _ _ hbr.2.1, isItemLine_not_dash _ _ hbr.2.2⟩

mutual

theorem parseBlock_enc (v : Value) (d : Nat) (rest : List Line) (fuel : Nat)
    (hrest : lowNext d rest)
    (hfuel : 2 * (encLines v d ++ rest).length + 3 ≤ fuel) :
    parseBlock fuel (encLines v d ++ rest) d = some (v, rest) := by
  cases fuel with
  | zero => omega
  | succ fuel =>
    by_cases hinl : isInline v = true
    · rw [encLines_inline v d hinl, List.singleton_append]
      exact parseBlock_inline fuel d v rest hinl
    · cases v with
      | null => simp [isInline] at hinl
      | bool b => simp [isInline] at hinl
      | int n => simp [isInline] at hinl
      | float m e => simp [isInline] at hinl
      | str s => simp [isInline] at hinl
      | dict kvs =>
        cases kvs with
        | nil => simp [isInline] at hinl
        | cons kv t =>
          obtain ⟨k0, v0⟩ := kv
          rw [encLines_dict _ d (by simp)] at hfuel ⊢
          have hfe : ∃ tail r0, encEntries ((k0, v0) :: t) d =
              (d, keyChars k0 ++ ':' :: tail) :: r0 := by
            rw [encEntries]
            split
            · exact ⟨' ' :: encodeScalar v0, encEntries t d, rfl⟩
            · exact ⟨[], encLines v0 (d + 2) ++ encEntries t d, rfl⟩
          obtain ⟨tail, r0, hfe⟩ := hfe
          have hpe := parseEntries_enc ((k0, v0) :: t) d rest fuel hrest (by omega)
          obtain ⟨hb1, hb2, hb3, hb4⟩ := entry_line_dispatch k0 tail
          rw [hfe, List.cons_append,
            parseBlock_dict fuel d _ _ k0 tail hb1 hb2 hb3 hb4
              (parseKeyFrom_keyChars k0 tail),
            ← List.cons_append, ← hfe, hpe]
      | list xs =>
        cases xs with
        | nil => simp [isInline] at hinl
        | cons x t =>
          rw [encLines_list _ d (by simp)] at hfuel ⊢
          by_cases htab : tabularOk (x :: t) = true
          · rw [if_pos htab] at hfuel ⊢
            obtain ⟨hne, hkne, hkeys, hx⟩ := tabularOk_spec (x :: t) htab
            have hph := parseHeader_headerChars (x :: t).length
              (tabHeaderKeys (x :: t)) hkne hkeys
            rw [show tabLines (x :: t) d =
                (d, headerChars (x :: t).length (tabHeaderKeys (x :: t))) ::
                  (x :: t).map (rowLine (d + 2)) from rfl,
              List.cons_append,
              parseBlock_header fuel d _ _ _ _ (headerChars_ne_braces _ _)
                (headerChars_ne_brackets _ _) hph,
              parseRows_rows _ _ _ rest hx]
          · rw [if_neg htab] at hfuel ⊢
            have hpi := parseItems_enc (x :: t) d rest fuel hrest (by omega)
            have hfi : ∃ cc r0, encItems (x :: t) d = (d, cc) :: r0 ∧
                isItemLine cc = true ∧ ¬cc = ['{', '}'] ∧ ¬cc = ['[', ']'] ∧
                parseHeader cc = none := by
              rw [encItems]
              split
              · exact ⟨'-' :: ' ' :: encodeScalar x, encItems t d, rfl, rfl,
                  cons_ne_lit _ _ _ _ (by decide), cons_ne_lit _ _ _ _ (by decide),
                  parseHeader_not_bracket _ _ (by decide)⟩
              · exact ⟨['-'], encLines x (d + 2) ++ encItems t d, rfl, rfl,
                  by decide, by decide, rfl⟩
            obtain ⟨cc, r0, hsh, hit, hb1, hb2, hb3⟩ := hfi
            rw [hsh, List.cons_append,
              parseBlock_items fuel d cc _ hb1 hb2 hb3 hit,
              ← List.cons_append, ← hsh, hpi]

theorem parseEntries_enc (kvs : List (String × Value)) (d : Nat)
    (rest : List Line) (fuel : Nat)
    (hrest : lowNext d rest)
    (hfuel : 2 * (encEntries kvs d ++ rest).length + 2 ≤ fuel) :
    parseEntries fuel (encEntries kvs d ++ rest) d = some (kvs, rest) := by
  cases fuel with
  | zero => omega
  | succ fuel =>
    cases kvs with
    | nil =>
      rw [show encEntries [] d = [] from by rw [encEntries], List.nil_append]
      cases rest with
      | nil => exact parseEntries_nil fuel d
      | cons l tl =>
        obtain ⟨j, c⟩ := l
        have hj : j < d := hrest
        exact parseEntries_stop fuel d j c tl (by omega)
    | cons kv t =>
      obtain ⟨k, v⟩ := kv
      rw [encEntries] at hfuel ⊢
      by_cases hv : isInline v = true
      · rw [if_pos hv] at hfuel ⊢
        rw [List.singleton_append, List.cons_append, parseEntries_cons]
        have hIH := parseEntries_enc t d rest fuel hrest (by
          simp only [List.singleton_append, List.cons_append, List.length_cons,
            List.length_append] at hfuel ⊢
          omega)
        simp only [parseKeyFrom_keyChars k (' ' :: encodeScalar v),
          parseScalar_encodeScalar v hv, hIH]
      · rw [if_neg hv] at hfuel ⊢
        rw [List.cons_append, List.cons_append, List.append_assoc,
          parseEntries_cons]
        have hb := parseBlock_enc v (d + 2) (encEntries t d ++ rest) fuel
          (lowNext_entries_append t d rest hrest) (by
            simp only [List.cons_append, List.length_cons,
              List.length_append] at hfuel ⊢
            omega)
        have hIH := parseEntries_enc t d rest fuel hrest (by
          simp only [List.cons_append, List.length_cons,
            List.length_append] at hfuel ⊢
          omega)
        simp only [show (keyChars k ++ [':'] : Chars) =
            keyChars k ++ ':' :: [] from rfl,
          parseKeyFrom_keyChars k [], hb, hIH]

theorem parseItems_enc (xs : List Value) (d : Nat)
    (rest : List Line) (fuel : Nat)
    (hrest : lowNext d rest)
    (hfuel : 2 * (encItems xs d ++ rest).length + 2 ≤ fuel) :
    parseItems fuel (encItems xs d ++ rest) d = some (xs, rest) := by
  cases fuel with
  | zero => omega
  | succ fuel =>
    cases xs with
    | nil =>
      rw [show encItems [] d = [] from by rw [encItems], List.nil_append]
      cases rest with
      | nil => exact parseItems_nil fuel d
      | cons l tl =>
        obtain ⟨j, c⟩ := l
        have hj : j < d := hrest
        exact parseItems_stop fuel d j c tl (by omega)
    | cons x t =>
      rw [encItems] at hfuel ⊢
      by_cases hx : isInline x = true
      · rw [if_pos hx] at hfuel ⊢
        rw [List.singleton_append, List.cons_append, parseItems_cons]
        have hIH := parseItems_enc t d rest fuel hrest (by
          simp only [List.singleton_append, List.cons_append, List.length_cons,
            List.length_append] at hfuel ⊢
          omega)
        simp only [parseScalar_encodeScalar x hx, hIH]
      · rw [if_neg hx] at hfuel ⊢
        rw [List.cons_append, List.cons_append, List.append_assoc,
          parseItems_cons]
        have hb := parseBlock_enc x (d + 2) (encItems t d ++ rest) fuel
          (lowNext_items_append t d rest hrest) (by
            simp only [List.cons_append, List.length_cons,
              List.length_append] at hfuel ⊢
            omega)
        have hIH := parseItems_enc t d rest fuel hrest (by
          simp only [List.cons_append, List.length_cons,
            List.length_append] at hfuel ⊢
          omega)
        simp only [hb, hIH]

end

theorem renderLine_no_newline (l : Line) (h : goodContent l.2) :
    '\n' ∉ renderLine l := by
  obtain ⟨j, c⟩ := l
  intro hm
  rcases List.mem_append.mp hm with hmm | hmm
  · exact absurd (List.eq_of_mem_replicate hmm) (by decide)
  · exact h.2.2 hmm

theorem toLine_renderLine (l : Line) (h : goodContent l.2) :
    (countLeading ' ' (renderLine l),
      (renderLine l).drop (countLeading ' ' (renderLine l))) = l := by
  obtain ⟨j, c⟩ := l
  have hcount : countLeading ' ' (renderLine (j, c)) = j :=
    countLeading_replicate_append ' ' j c h.2.1
  rw [hcount]
  show (j, (List.replicate j ' ' ++ c).drop j) = (j, c)
  rw [List.drop_left' (by simp)]

theorem map_toLine_renderLine (ls : List Line)
    (hgood : ∀ l ∈ ls, goodContent l.2) :
    ls.map (fun l => (countLeading ' ' (renderLine l),
      (renderLine l).drop (countLeading ' ' (renderLine l)))) = ls := by
  induction ls with
  | nil => rfl
  | cons l tl ih =>
    rw [List.map_cons, toLine_renderLine l (hgood l (by simp)),
      ih (fun x hx => hgood x (by simp [hx]))]

theorem splitLinesRaw_render (ls : List Line) (hne : ls ≠ [])
    (hgood : ∀ l ∈ ls, goodContent l.2) : splitLinesRaw (render ls) = ls := by
  unfold splitLinesRaw render
  rw [splitOnChar_intercalate '\n' (ls.map renderLine) (by simpa using hne)
    (fun cell hcell => by
      obtain ⟨l, hl, rfl⟩ := List.mem_map.mp hcell
      exact renderLine_no_newline l (hgood l hl))]
  rw [List.map_map]
  have hcomp : ((fun l : Chars => (countLeading ' ' l, l.drop (countLeading ' ' l))) ∘
      renderLine) = (fun l : Line => (countLeading ' ' (renderLine l),
        (renderLine l).drop (countLeading ' ' (renderLine l)))) := rfl
  rw [hcomp, map_toLine_renderLine ls hgood]

/-- The Codec round-trip law: decoding the encoding of any representable
value yields that value back. -/
theorem toon_roundtrip (v : Value) : from_toon (to_toon v) = some v := by
  unfold from_toon to_toon
  have hdata : (String.mk (render (encLines v 0))).data = render (encLines v 0) := rfl
  obtain ⟨c0, r0, hsh⟩ := encLines_shape v 0
  have hne : encLines v 0 ≠ [] := by rw [hsh]; simp
  rw [hdata, splitLinesRaw_render _ hne (encLines_good v 0)]
  have hpb := parseBlock_enc v 0 [] (2 * (encLines v 0).length + 3) trivial
    (by simp)
  rw [List.append_nil] at hpb
  rw [hpb]

/-- Embedding of the settings object read by `format_response`
(`template_mcp_server.src.settings`): the single process-wide flag. -/
structure Settings where
  ENABLE_TOON_FORMAT : Bool

/-- A tool's return value: TOON text when the flag is enabled, the original
structure otherwise. -/
inductive Formatted where
  | text (s : String)
  | value (v : Value)

/-- Embedding of `format_response` (`toon_utils.py`): return the
TOON-formatted string if `ENABLE_TOON_FORMAT` is set, otherwise return the
original data structure unchanged. -/
def format_response (settings : Settings) (data : Value) : Formatted :=
  if settings.ENABLE_TOON_FORMAT then .text (to_toon data) else .value data

/-- Python's `isinstance(x, (int, float))`: booleans are instances of `int`
in Python, so they pass this check. -/
def isNumber : Value → Bool
  | .bool _ => true
  | .int _ => true
  | .float _ _ => true
  | _ => false

/-- Python numeric multiplication on the modelled values, with `bool`
coerced to 0/1 as in Python; `int * int` stays `int`, any float operand
yields a float.  Float arithmetic is modelled exactly over decimal
fractions (`float m e` is `m / 10 ^ (e+1)`), abstracting from IEEE-754
rounding. -/
def pyMul : Value → Value → Value
  | .bool a, .bool b => .int ((if a then 1 else 0) * (if b then 1 else 0))
  | .bool a, .int n => .int ((if a then 1 else 0) * n)
  | .int n, .bool b => .int (n * (if b then 1 else 0))
  | .int n1, .int n2 => .int (n1 * n2)
  | .bool a, .float m e => .float ((if a then 1 else 0) * m) e
  | .float m e, .bool b => .float (m * (if b then 1 else 0)) e
  | .int n, .float m e => .float (n * m) e
  | .float m e, .int n => .float (m * n) e
  | .float m1 e1, .float m2 e2 => .float (m1 * m2) (e1 + e2 + 1)
  | _, _ => .null

/-- Python's `str()` of the numeric values interpolated into the success
message (floats print in their decimal form, booleans as `True`/`False`). -/
def pyStr : Value → String
  | .bool true => "True"
  | .bool false => "False"
  | .int n => String.mk (intToChars n)
  | .float m e => String.mk (floatChars m e)
  | _ => ""

/-- The success envelope built by `multiply_numbers` (`multiply_tool.py`,
lines 56-63): status, operation tag, echoed inputs, result, message. -/
def successEnvelope (a b : Value) : Value :=
  .dict [("status", .str "success"), ("operation", .str "multiplication"),
    ("a", a), ("b", b), ("result", pyMul a b),
    ("message", .str ("Successfully multiplied " ++ pyStr a ++ " and " ++ pyStr b))]

/-- The error envelope built by `multiply_numbers`'s `except` handler
(`multiply_tool.py`, lines 67-72): status, `str(e)`, fixed message. -/
def errorEnvelope (e : String) : Value :=
  .dict [("status", .str "error"), ("error", .str e),
    ("message", .str "Failed to perform multiplication")]

/-- The `try`-block of `multiply_numbers`: validate (raising `ValueError`,
modelled as `Except.error` with the message `str(e)` would carry), then
compute and build the success envelope. -/
def multiplyBody (a b : Value) : Except String Value :=
  if isNumber a && isNumber b then .ok (successEnvelope a b)
  else .error "Both inputs must be numbers"

/-- The envelope `multiply_numbers` hands to `format_response`: the success
envelope, or — when the body raised — the error envelope wrapping `str(e)`. -/
def multiplyEnvelope (a b : Value) : Value :=
  match multiplyBody a b with
  | .ok env => env
  | .error e => errorEnvelope e

/-- Embedding of `multiply_numbers` (`multiply_tool.py`): validate, multiply,
wrap in a status envelope, and pass the envelope through `format_response`;
exceptions are caught at the boundary and returned as error envelopes. -/
def multiply_numbers (settings : Settings) (a b : Value) : Formatted :=
  format_response settings (multiplyEnvelope a b)

/-- Key lookup in an envelope dictionary (first match, as in Python dicts
with unique keys). -/
def lookupKey (kvs : List (String × Value)) (k : String) : Option Value :=
  match kvs with
  | [] => none
  | (k', v) :: rest => if k' = k then some v else lookupKey rest k

/-- Field access on an envelope. -/
def envLookup (env : Value) (k : String) : Option Value :=
  match env with
  | .dict kvs => lookupKey kvs k
  | _ => none

/-- The key list of an envelope. -/
def dictKeys : Value → List String
  | .dict kvs => kvs.map Prod.fst
  | _ => []

/-- An envelope of the success shape: `status: "success"` plus the
operation, result, and message fields the Tool Contract requires. -/
def isSuccessShape (env : Value) : Prop :=
  envLookup env "status" = some (.str "success") ∧
  (envLookup env "operation").isSome = true ∧
  (envLookup env "result").isSome = true ∧
  (envLookup env "message").isSome = true

/-- An envelope of the error shape: `status: "error"` plus the error and
message fields the Tool Contract requires. -/
def isErrorShape (env : Value) : Prop :=
  envLookup env "status" = some (.str "error") ∧
  (envLookup env "error").isSome = true ∧
  (envLookup env "message").isSome = true

/-- Rational value of a modelled Python number (`float m e` denotes
`m / 10 ^ (e+1)`; booleans count 1/0). -/
def valRat : Value → ℚ
  | .bool b => if b then 1 else 0
  | .int n => (n : ℚ)
  | .float m e => (m : ℚ) / 10 ^ (e + 1)
  | _ => 0

/-- Predicate: the value is a Python `int` proper (not a bool). -/
def Value.isInt : Value → Bool
  | .int _ => true
  | _ => false

/-- Predicate: the value is a Python `float`. -/
def Value.isFloat : Value → Bool
  | .float _ _ => true
  | _ => false

theorem multiplyEnvelope_success (a b : Value)
    (h : (isNumber a && isNumber b) = true) :
    multiplyEnvelope a b = successEnvelope a b := by
  unfold multiplyEnvelope multiplyBody
  rw [if_pos h]

theorem multiplyEnvelope_error (a b : Value)
    (h : ¬(isNumber a && isNumber b) = true) :
    multiplyEnvelope a b = errorEnvelope "Both inputs must be numbers" := by
  unfold multiplyEnvelope multiplyBody
  rw [if_neg h]

theorem pyMul_comm (a b : Value) : pyMul a b = pyMul b a := by
  cases a <;> cases b <;> simp only [pyMul] <;> try rfl
  all_goals (congr 1 <;> first
    | exact Int.mul_comm _ _
    | omega)

theorem valRat_pyMul (a b : Value) (ha : isNumber a = true)
    (hb : isNumber b = true) : valRat (pyMul a b) = valRat a * valRat b := by
  cases a with
  | bool ba =>
    cases b with
    | bool bb => cases ba <;> cases bb <;> simp [pyMul, valRat]
    | int n => cases ba <;> simp [pyMul, valRat]
    | float m e =>
      cases ba <;> simp [pyMul, valRat]
    | null => simp [isNumber] at hb
    | str s => simp [isNumber] at hb
    | list xs => simp [isNumber] at hb
    | dict kvs => simp [isNumber] at hb
  | int n1 =>
    cases b with
    | bool bb => cases bb <;> simp [pyMul, valRat]
    | int n2 => simp [pyMul, valRat]
    | float m e =>
      simp only [pyMul, valRat]
      push_cast
      ring
    | null => simp [isNumber] at hb
    | str s => simp [isNumber] at hb
    | list xs => simp [isNumber] at hb
    | dict kvs => simp [isNumber] at hb
  | float m1 e1 =>
    cases b with
    | bool bb => cases bb <;> simp [pyMul, valRat]
    | int n2 =>
      simp only [pyMul, valRat]
      push_cast
      ring
    | float m2 e2 =>
      simp only [pyMul, valRat]
      push_cast
      rw [div_mul_div_comm, ← pow_add]
      congr 2
      omega
    | null => simp [isNumber] at hb
    | str s => simp [isNumber] at hb
    | list xs => simp [isNumber] at hb
    | dict kvs => simp [isNumber] at hb
  | null => simp [isNumber] at ha
  | str s => simp [isNumber] at ha
  | list xs => simp [isNumber] at ha
  | dict kvs => simp [isNumber] at ha

theorem pyMul_int_int (a b : Value) (ha : a.isInt = true) (hb : b.isInt = true) :
    (pyMul a b).isInt = true := by
  cases a with
  | int n1 =>
    cases b with
    | int n2 => rfl
    | null => simp [Value.isInt] at hb
    | bool b2 => simp [Value.isInt] at hb
    | float m e => simp [Value.isInt] at hb
    | str s => simp [Value.isInt] at hb
    | list xs => simp [Value.isInt] at hb
    | dict kvs => simp [Value.isInt] at hb
  | null => simp [Value.isInt] at ha
  | bool b1 => simp [Value.isInt] at ha
  | float m e => simp [Value.isInt] at ha
  | str s => simp [Value.isInt] at ha
  | list xs => simp [Value.isInt] at ha
  | dict kvs => simp [Value.isInt] at ha

theorem pyMul_float (a b : Value) (ha : isNumber a = true)
    (hb : isNumber b = true)
    (h : a.isFloat = true ∨ b.isFloat = true) : (pyMul a b).isFloat = true := by
  cases a <;> cases b <;>
    simp_all [Value.isFloat, isNumber, pyMul]

/-- C1: For every representable Value v (null, boolean, integer, float,
string, sequence, or string-keyed mapping), decoding the encoding of v
yields a value structurally equal to v, numeric type (integer vs float)
included: `from_toon (to_toon v) = some v`. -/
theorem claim_C1_codec_roundtrip (v : Value) : from_toon (to_toon v) = some v :=
  toon_roundtrip v

/-- C2: For every payload, `format_response` returns the encoded text
`to_toon payload` when the `ENABLE_TOON_FORMAT` flag is true, and returns
the payload itself unchanged (identity passthrough) when the flag is
false; this branch is the single point deciding the wire representation. -/
theorem claim_C2_format_response_branch (data : Value) :
    format_response ⟨true⟩ data = .text (to_toon data) ∧
    format_response ⟨false⟩ data = .value data :=
  ⟨rfl, rfl⟩

/-- C3: For every tool input, the value `multiply_numbers` returns with the
formatting flag enabled is a text string that decodes (via `from_toon`) to
exactly the envelope the same call returns with the flag disabled;
toggling the flag changes only the wire representation, never the
envelope's logical content. -/
theorem claim_C3_modes_equivalent (a b : Value) :
    multiply_numbers ⟨true⟩ a b = .text (to_toon (multiplyEnvelope a b)) ∧
    multiply_numbers ⟨false⟩ a b = .value (multiplyEnvelope a b) ∧
    from_toon (to_toon (multiplyEnvelope a b)) = some (multiplyEnvelope a b) :=
  ⟨rfl, rfl, toon_roundtrip _⟩

/-- C4: For every pair of inputs a, b of any type whatsoever,
`multiply_numbers` produces exactly one envelope — of the success shape or
of the error shape, never both, never missing the fields its status
requires — and never propagates an exception: every error the body raises
is translated into the error envelope. -/
theorem claim_C4_total_envelope (a b : Value) :
    ((isSuccessShape (multiplyEnvelope a b) ∧ ¬isErrorShape (multiplyEnvelope a b)) ∨
     (isErrorShape (multiplyEnvelope a b) ∧ ¬isSuccessShape (multiplyEnvelope a b))) ∧
    (∀ e, multiplyBody a b = Except.error e →
      multiplyEnvelope a b = errorEnvelope e) := by
  constructor
  · by_cases h : (isNumber a && isNumber b) = true
    · left
      rw [multiplyEnvelope_success a b h]
      refine ⟨⟨rfl, rfl, rfl, rfl⟩, ?_⟩
      intro hshape
      obtain ⟨h1, _⟩ := hshape
      simp [successEnvelope, envLookup, lookupKey] at h1
    · right
      rw [multiplyEnvelope_error a b h]
      refine ⟨⟨rfl, rfl, rfl⟩, ?_⟩
      intro hshape
      obtain ⟨h1, _⟩ := hshape
      simp [errorEnvelope, envLookup, lookupKey] at h1
  · intro e he
    unfold multiplyEnvelope
    rw [he]

/-- C5: For all numeric a and b, `multiply_numbers` succeeds with result
equal to the arithmetic product a·b (exactly, in the decimal model of
Python numbers), and the numeric type is preserved: two ints give an int,
any float operand gives a float. -/
theorem claim_C5_product_type_preserved (a b : Value)
    (ha : isNumber a = true) (hb : isNumber b = true) :
    envLookup (multiplyEnvelope a b) "status" = some (.str "success") ∧
    envLookup (multiplyEnvelope a b) "result" = some (pyMul a b) ∧
    valRat (pyMul a b) = valRat a * valRat b ∧
    (a.isInt = true → b.isInt = true → (pyMul a b).isInt = true) ∧
    ((a.isFloat = true ∨ b.isFloat = true) → (pyMul a b).isFloat = true) := by
  have h : (isNumber a && isNumber b) = true := by simp [ha, hb]
  rw [multiplyEnvelope_success a b h]
  exact ⟨rfl, rfl, valRat_pyMul a b ha hb, pyMul_int_int a b, pyMul_float a b ha hb⟩

/-- Witness for C5 at `10 * 7`: both hypotheses hold and the theorem
applies; the result field carries the integer 70. -/
theorem claim_C5_witness :
    isNumber (Value.int 10) = true ∧ isNumber (Value.int 7) = true ∧
    pyMul (Value.int 10) (Value.int 7) = Value.int 70 ∧
    (envLookup (multiplyEnvelope (Value.int 10) (Value.int 7)) "status" =
        some (.str "success") ∧
      envLookup (multiplyEnvelope (Value.int 10) (Value.int 7)) "result" =
        some (pyMul (Value.int 10) (Value.int 7)) ∧
      valRat (pyMul (Value.int 10) (Value.int 7)) =
        valRat (Value.int 10) * valRat (Value.int 7) ∧
      ((Value.int 10).isInt = true → (Value.int 7).isInt = true →
        (pyMul (Value.int 10) (Value.int 7)).isInt = true) ∧
      (((Value.int 10).isFloat = true ∨ (Value.int 7).isFloat = true) →
        (pyMul (Value.int 10) (Value.int 7)).isFloat = true)) :=
  ⟨rfl, rfl, rfl, claim_C5_product_type_preserved (.int 10) (.int 7) rfl rfl⟩

/-- C6: For every call of `multiply_numbers` where a or b is non-numeric,
the returned envelope has status "error", an error field equal to the
constraint message "Both inputs must be numbers", and a message containing
(indeed equal to) "Failed to perform multiplication". -/
theorem claim_C6_validation_error (a b : Value)
    (h : ¬(isNumber a = true ∧ isNumber b = true)) :
    multiplyEnvelope a b = errorEnvelope "Both inputs must be numbers" ∧
    envLookup (multiplyEnvelope a b) "status" = some (.str "error") ∧
    envLookup (multiplyEnvelope a b) "error" =
      some (.str "Both inputs must be numbers") ∧
    envLookup (multiplyEnvelope a b) "message" =
      some (.str "Failed to perform multiplication") := by
  have h2 : ¬(isNumber a && isNumber b) = true := by
    simp only [Bool.and_eq_true]
    exact h
  rw [multiplyEnvelope_error a b h2]
  exact ⟨rfl, rfl, rfl, rfl⟩

/-- Witness for C6 at `multiply("5", 3.0)`: the string input fails the
numeric check and the error envelope results. -/
theorem claim_C6_witness :
    ¬(isNumber (Value.str "5") = true ∧ isNumber (Value.float 30 0) = true) ∧
    (multiplyEnvelope (Value.str "5") (Value.float 30 0) =
        errorEnvelope "Both inputs must be numbers" ∧
      envLookup (multiplyEnvelope (Value.str "5") (Value.float 30 0)) "status" =
        some (.str "error") ∧
      envLookup (multiplyEnvelope (Value.str "5") (Value.float 30 0)) "error" =
        some (.str "Both inputs must be numbers") ∧
      envLookup (multiplyEnvelope (Value.str "5") (Value.float 30 0)) "message" =
        some (.str "Failed to perform multiplication")) :=
  ⟨by simp [isNumber],
    claim_C6_validation_error (.str "5") (.float 30 0) (by simp [isNumber])⟩

/-- C7: For all numeric a and b, the result field of the envelope returned
for (a, b) equals the result field of the envelope returned for (b, a). -/
theorem claim_C7_commutative (a b : Value)
    (ha : isNumber a = true) (hb : isNumber b = true) :
    envLookup (multiplyEnvelope a b) "result" =
      envLookup (multiplyEnvelope b a) "result" := by
  have hab : (isNumber a && isNumber b) = true := by simp [ha, hb]
  have hba : (isNumber b && isNumber a) = true := by simp [ha, hb]
  rw [multiplyEnvelope_success a b hab, multiplyEnvelope_success b a hba]
  show some (pyMul a b) = some (pyMul b a)
  rw [pyMul_comm]

/-- Witness for C7 at `5.0 * 3.0` (floats 50/10 and 30/10). -/
theorem claim_C7_witness :
    isNumber (Value.float 50 0) = true ∧ isNumber (Value.float 30 0) = true ∧
    envLookup (multiplyEnvelope (Value.float 50 0) (Value.float 30 0)) "result" =
      envLookup (multiplyEnvelope (Value.float 30 0) (Value.float 50 0)) "result" :=
  ⟨rfl, rfl, claim_C7_commutative (.float 50 0) (.float 30 0) rfl rfl⟩

/-- C8: For all numeric a and b, the success envelope contains status
"success", the operation tag "multiplication", the inputs a and b echoed
exactly as given, the computed result, and a human-readable message — and
nothing else. -/
theorem claim_C8_success_shape (a b : Value)
    (ha : isNumber a = true) (hb : isNumber b = true) :
    multiplyEnvelope a b = Value.dict
      [("status", .str "success"), ("operation", .str "multiplication"),
       ("a", a), ("b", b), ("result", pyMul a b),
       ("message", .str ("Successfully multiplied " ++ pyStr a ++ " and " ++ pyStr b))] :=
  multiplyEnvelope_success a b (by simp [ha, hb])

/-- Witness for C8 at `4 * 5`. -/
theorem claim_C8_witness :
    isNumber (Value.int 4) = true ∧ isNumber (Value.int 5) = true ∧
    multiplyEnvelope (Value.int 4) (Value.int 5) = Value.dict
      [("status", .str "success"), ("operation", .str "multiplication"),
       ("a", Value.int 4), ("b", Value.int 5),
       ("result", pyMul (Value.int 4) (Value.int 5)),
       ("message", .str ("Successfully multiplied " ++ pyStr (Value.int 4) ++
         " and " ++ pyStr (Value.int 5)))] :=
  ⟨rfl, rfl, claim_C8_success_shape (.int 4) (.int 5) rfl rfl⟩

/-- C9: Boolean inputs pass the numeric validation: for every boolean a and
numeric b the call succeeds, with result a·b where True counts as 1 and
False as 0, rather than producing the non-numeric validation error. -/
theorem claim_C9_bool_passes (bv : Bool) (x : Value) (hx : isNumber x = true) :
    multiplyEnvelope (.bool bv) x = successEnvelope (.bool bv) x ∧
    envLookup (multiplyEnvelope (.bool bv) x) "status" = some (.str "success") ∧
    envLookup (multiplyEnvelope (.bool bv) x) "result" =
      some (pyMul (.bool bv) x) ∧
    valRat (pyMul (.bool bv) x) = (if bv then 1 else 0) * valRat x := by
  have h : (isNumber (Value.bool bv) && isNumber x) = true := by
    simp only [hx, Bool.and_true]
    rfl
  rw [multiplyEnvelope_success _ _ h]
  refine ⟨rfl, rfl, rfl, ?_⟩
  rw [valRat_pyMul (.bool bv) x rfl hx]
  cases bv <;> simp [valRat]

/-- Witness for C9 at `True * 3`: success with result 3. -/
theorem claim_C9_witness :
    isNumber (Value.int 3) = true ∧
    pyMul (Value.bool true) (Value.int 3) = Value.int 3 ∧
    (multiplyEnvelope (Value.bool true) (Value.int 3) =
        successEnvelope (Value.bool true) (Value.int 3) ∧
      envLookup (multiplyEnvelope (Value.bool true) (Value.int 3)) "status" =
        some (.str "success") ∧
      envLookup (multiplyEnvelope (Value.bool true) (Value.int 3)) "result" =
        some (pyMul (Value.bool true) (Value.int 3)) ∧
      valRat (pyMul (Value.bool true) (Value.int 3)) =
        (if true then 1 else 0) * valRat (Value.int 3)) :=
  ⟨rfl, rfl, claim_C9_bool_passes true (.int 3) rfl⟩

/-- C10: Every error envelope returned by `multiply_numbers` contains
exactly the three fields status, error, and message — in particular no
operation tag and no echo of the inputs a and b. -/
theorem claim_C10_error_fields (a b : Value)
    (h : ¬(isNumber a = true ∧ isNumber b = true)) :
    multiplyEnvelope a b = Value.dict
      [("status", .str "error"), ("error", .str "Both inputs must be numbers"),
       ("message", .str "Failed to perform multiplication")] ∧
    dictKeys (multiplyEnvelope a b) = ["status", "error", "message"] ∧
    envLookup (multiplyEnvelope a b) "operation" = none ∧
    envLookup (multiplyEnvelope a b) "a" = none ∧
    envLookup (multiplyEnvelope a b) "b" = none := by
  have h2 : ¬(isNumber a && isNumber b) = true := by
    simp only [Bool.and_eq_true]
    exact h
  rw [multiplyEnvelope_error a b h2]
  exact ⟨rfl, rfl, rfl, rfl, rfl⟩

/-- Witness for C10 at `multiply(None, 3.0)`. -/
theorem claim_C10_witness :
    ¬(isNumber Value.null = true ∧ isNumber (Value.float 30 0) = true) ∧
    (multiplyEnvelope Value.null (Value.float 30 0) = Value.dict
        [("status", .str "error"), ("error", .str "Both inputs must be numbers"),
         ("message", .str "Failed to perform multiplication")] ∧
      dictKeys (multiplyEnvelope Value.null (Value.float 30 0)) =
        ["status", "error", "message"] ∧
      envLookup (multiplyEnvelope Value.null (Value.float 30 0)) "operation" = none ∧
      envLookup (multiplyEnvelope Value.null (Value.float 30 0)) "a" = none ∧
      envLookup (multiplyEnvelope Value.null (Value.float 30 0)) "b" = none) :=
  ⟨by simp [isNumber],
    claim_C10_error_fields Value.null (.float 30 0) (by simp [isNumber])⟩

end ToonSpec
